import Mathlib

/-!
Verification model of `knowall.py` (repository tbnorth/knowall).

This file gives a shallow embedding of the analysis core of `knowall.py`:
the content hasher (`get_hash`), the persistent/in-process hash cache
(`find_hash` with its `lru_cache` and the SQLite hash DB), the duplicate
file engine (`get_dupes` and the `dupes` mode's emission loop), the
hierarchical directory tree builder (`get_hier_db`), and the duplicate
directory engine (`recur` / `dupe_dirs`).

Modelling conventions:
* SHA-1 is modelled collision-free: the digest space `HashVal` is an
  inductive type whose constructors are injective, so two digests are
  equal exactly when the hashed inputs are equal.  Digest values are the
  images of the strings the Python code manipulates: `sha1File c` is the
  hexdigest of file content `c`, `noAccess` is the literal string
  "NOFILEACCESS", `noHash` the literal "no-hash", `listHash l` is
  `get_list_hash`'s `sha1(str(hash_list))`, and `sizeVal n` is the Python
  int `n` as it appears inside a `child_hashes` list.
* The filesystem is a parameter `fs : String → Option String` giving each
  openable path its byte content; `fs p = none` means `open(p, "rb")`
  raises (permission error, missing file, ...).  Exceptions are modelled
  with `Except Unit`.
* The SQLite hash DB and the `lru_cache` memo of `find_hash` are explicit
  state (`RunState`), threaded through every call.  The hash column of
  the DB holds digest values (`HashVal`); every such value renders to a
  non-empty string, so Python's truthiness test `if hashtext` is the
  `Option.isSome` of the lookup.
* Python `str` operations that the code relies on (`startswith`,
  `split`, `strip`, comparison) are re-implemented over `List Char` so
  that all definitions evaluate inside the kernel.
-/

namespace Knowall

/-- Python string comparison `a < b` (lexicographic over code points),
re-implemented over char lists so it evaluates in the kernel. -/
def charsLT : List Char → List Char → Bool
  | [], [] => false
  | [], _ :: _ => true
  | _ :: _, [] => false
  | a :: as, b :: bs => a.toNat < b.toNat || (a.toNat = b.toNat && charsLT as bs)

/-- Python `b.startswith(a)`: `a` is a raw character-wise first segment of `b`. -/
def charsStart : List Char → List Char → Bool
  | [], _ => true
  | _ :: _, [] => false
  | a :: as, b :: bs => a = b && charsStart as bs

/-- Python `b.startswith(a)` on strings. -/
def strStart (a b : String) : Bool := charsStart a.toList b.toList

/-- Python `s.split(sep)` for a one-character separator, over char lists.
`split` on an empty string yields one empty piece, like Python. -/
def charsSplit (sep : Char) : List Char → List (List Char)
  | [] => [[]]
  | c :: cs =>
      match charsSplit sep cs with
      | [] => [[]]
      | piece :: rest => if c = sep then [] :: piece :: rest else (c :: piece) :: rest

/-- Python `s.strip(ch)` for a one-character strip set, over char lists. -/
def charsStrip (ch : Char) (l : List Char) : List Char :=
  ((l.dropWhile (· = ch)).reverse.dropWhile (· = ch)).reverse

/-- The `"path".strip("/").split("/")` idiom of `get_hier_db`. -/
def splitPath (p : String) : List String :=
  (charsSplit '/' (charsStrip '/' p.toList)).map List.asString

/-- Model of `os.path.join(a, b)` for the forward-slash paths the record
stream carries (POSIX join: an absolute second part replaces the first). -/
def path_join (a b : String) : String :=
  if strStart "/" b then b
  else if a = "" then b
  else if a.toList.getLast? = some '/' then a ++ b
  else a ++ "/" ++ b

/-- FileInfo: the fields of the Python `FileInfo` stat tuple that the
analysis core reads (`name`, `st_size`, `st_atime`, `st_mtime`); the
remaining stat fields are opaque to every function modelled here.  A
`none` size/time is the `NULLSTAT` case (Windows path-length stat
failure).  Field order mirrors the tuple's relative order of these
fields, which is what Python's tuple comparison in `sorted` consults. -/
structure FileInfo where
  name : String
  st_size : Option Nat
  st_atime : Option Int
  st_mtime : Option Int
deriving DecidableEq, Repr

/-- Digest values, collision-free model of the strings the Python code
compares (see the module docstring). `hnil`/`hcons` are the spine of the
list carried by `listHash`, so that equality of digests is derivable. -/
inductive HashVal where
  | sha1File (content : String)
  | noAccess
  | noHash
  | sizeVal (n : Nat)
  | hnil
  | hcons (h : HashVal) (t : HashVal)
  | listHash (l : HashVal)
deriving DecidableEq, Repr

/-- Embed a Lean list of digests as a `listHash` spine. -/
def HashVal.ofList : List HashVal → HashVal
  | [] => .hnil
  | h :: t => .hcons h (HashVal.ofList t)

/-- Model of `get_list_hash(hash_list)`: `sha1(str(hash_list))`, i.e. an
injective function of the list of hashes. -/
def get_list_hash (l : List HashVal) : HashVal := .listHash (HashVal.ofList l)

/-- Model of `long_path(path)`: prepend Windows long-path prefixes. -/
def long_path (path : String) : String :=
  if path.length < 3 then path
  else if path.toList.head? = some '\\' then
    "\\\\?\\UNC\\" ++ (path.toList.dropWhile (· = '\\')).asString
  else if path.toList.get? 1 = some ':' then "\\\\?\\" ++ path
  else path

/-- Python truthiness of an optional string (`None` and `""` are falsy). -/
def pyTruthy : Option String → Bool
  | none => false
  | some s => s ≠ ""

/-- Model of `get_hash(path)`: the streaming chunk loop digests the whole
file, so a readable path yields the SHA-1 of its full content.  A falsy
`path` (the `None` marker from `path_length_check`, or an empty string)
returns the literal "NOFILEACCESS" without opening anything.  A truthy
path that cannot be opened raises (`open` is not guarded), modelled as
`Except.error`.  The progress callback only writes to stdout and is
dropped. -/
def get_hash (fs : String → Option String) (path : Option String) : Except Unit HashVal :=
  if pyTruthy path then
    match fs (long_path (path.getD "")) with
    | some content => .ok (.sha1File content)
    | none => .error ()
  else .ok .noAccess

/-- One row of the SQLite hash DB: `(filepath, st_size, st_mtime, hash)`.
The hash column holds a digest (every digest renders as a non-empty
string, so a fetched row is always truthy). -/
structure DbRow where
  filepath : String
  st_size : Option Nat
  st_mtime : Option Int
  hash : HashVal
deriving DecidableEq, Repr

/-- SQL equality for a nullable integer column: `col = ?` is never
satisfied when either side is NULL. -/
def sqlEqN (a b : Option Nat) : Bool :=
  match a, b with
  | some x, some y => x = y
  | _, _ => false

/-- SQL equality for a nullable integer column (signed variant). -/
def sqlEqI (a b : Option Int) : Bool :=
  match a, b with
  | some x, some y => x = y
  | _, _ => false

/-- Model of the `select hash from hash where filepath = ? and st_size = ?
and st_mtime = ?` lookup: the first matching row's hash. -/
def dbLookup (rows : List DbRow) (fp : String) (sz : Option Nat) (mt : Option Int) :
    Option HashVal :=
  match rows with
  | [] => none
  | r :: rest =>
      if r.filepath = fp && sqlEqN r.st_size sz && sqlEqI r.st_mtime mt then some r.hash
      else dbLookup rest fp sz mt

/-- Key of the `lru_cache` on `find_hash` that varies within a run: the
`dbpath` argument is fixed per run, so the memo is keyed by
`(filepath, fileinfo, no_hash)`. -/
abbrev MemoKey := String × FileInfo × Bool

/-- Lookup in the in-process memo. -/
def memoLookup (memo : List (MemoKey × HashVal)) (k : MemoKey) : Option HashVal :=
  match memo with
  | [] => none
  | (k', v) :: rest => if k' = k then some v else memoLookup rest k

/-- Mutable state of one analysis run: whether `--hash-db` was given
(`dbOpen`), the rows of that DB, the `lru_cache` memo of `find_hash`,
and a count of how many times `get_hash` actually digested a file (the
instrumentation needed to state the at-most-once caching claims). -/
structure RunState where
  dbOpen : Bool
  db : List DbRow
  memo : List (MemoKey × HashVal)
  hashCount : Nat
deriving Repr

/-- Model of `find_hash(dbpath, filepath, fileinfo, no_hash)`.

Faithful to the source: on an `lru_cache` hit the body is skipped;
otherwise the hash DB (if open) is consulted by
`(filepath, st_size, st_mtime)`; `if hashtext or no_hash:` returns the
stored digest, or the "no-hash" sentinel when nothing is stored; else
`get_hash` runs (its exception, if any, propagates and nothing is
memoized) and on success the digest is inserted into the DB and
returned.  The memo records the returned value exactly when the body ran
to completion, as `lru_cache` does. -/
def find_hash (fs : String → Option String) (st : RunState) (filepath : String)
    (fi : FileInfo) (no_hash : Bool) : Except Unit (HashVal × RunState) :=
  match memoLookup st.memo (filepath, fi, no_hash) with
  | some h => .ok (h, st)
  | none =>
      let stored :=
        if st.dbOpen then dbLookup st.db filepath fi.st_size fi.st_mtime else none
      match stored with
      | some h =>
          .ok (h, { st with memo := ((filepath, fi, no_hash), h) :: st.memo })
      | none =>
          if no_hash then
            .ok (.noHash, { st with memo := ((filepath, fi, no_hash), .noHash) :: st.memo })
          else
            match get_hash fs (some filepath) with
            | .error e => .error e
            | .ok h =>
                let db' :=
                  if st.dbOpen then
                    st.db ++ [⟨filepath, fi.st_size, fi.st_mtime, h⟩]
                  else st.db
                .ok (h, { st with
                            db := db'
                            memo := ((filepath, fi, no_hash), h) :: st.memo
                            hashCount := st.hashCount + 1 })

/-- One record of the parsed input stream: `{"path": ..., "files": [...]}`
after `get_data`'s filtering (the claims under study run without filters,
where `get_data` yields every parsed record unchanged). -/
structure Record where
  path : String
  files : List FileInfo
deriving DecidableEq, Repr

/-- Stable insertion into a descending-sorted list: `x` goes before the
first element it is `le`-related to.  Combined with `isort` below this is
a stable sort, like Python's `sorted`. -/
def insertLE {α : Type} (le : α → α → Bool) (x : α) : List α → List α
  | [] => [x]
  | y :: ys => if le x y then x :: y :: ys else y :: insertLE le x ys

/-- Stable insertion sort: `isort le l` orders `l` by the "sorts no later
than" test `le`, keeping the original order of `le`-ties. -/
def isort {α : Type} (le : α → α → Bool) : List α → List α
  | [] => []
  | x :: xs => insertLE le x (isort le xs)

/-- Strict comparison of nullable sizes, `None` before any value. -/
def ltON : Option Nat → Option Nat → Bool
  | none, some _ => true
  | some x, some y => x < y
  | _, _ => false

/-- Strict comparison of nullable signed times, `None` before any value. -/
def ltOI : Option Int → Option Int → Bool
  | none, some _ => true
  | some x, some y => x < y
  | _, _ => false

/-- Comparison used by `sorted(node[FILES])`: Python tuple comparison of
`FileInfo` tuples, restricted to the modelled fields in their tuple
order (`name`, then `st_size`, `st_atime`, `st_mtime`).  `none` sorts
before any integer (in Python a `None` tie would raise; the record
streams considered here never tie on all modelled fields). -/
def fileLE (a b : FileInfo) : Bool :=
  charsLT a.name.toList b.name.toList ||
    (a.name = b.name &&
      (ltON a.st_size b.st_size ||
        (a.st_size = b.st_size &&
          (ltOI a.st_atime b.st_atime ||
            (a.st_atime = b.st_atime &&
              (ltOI a.st_mtime b.st_mtime || a.st_mtime = b.st_mtime))))))

/-- Append `v` under key `k` in an insertion-ordered multimap, as a
Python `defaultdict(list)` does: an existing key keeps its position and
grows its list; a new key goes to the end. -/
def multiAppend {κ ν : Type} [DecidableEq κ] (m : List (κ × List ν)) (k : κ) (v : ν) :
    List (κ × List ν) :=
  match m with
  | [] => [(k, [v])]
  | (k', vs) :: rest =>
      if k' = k then (k', vs ++ [v]) :: rest else (k', vs) :: multiAppend rest k v

/-- Values stored under `k` (empty when `k` is absent). -/
def multiGet {κ ν : Type} [DecidableEq κ] (m : List (κ × List ν)) (k : κ) : List ν :=
  match m with
  | [] => []
  | (k', vs) :: rest => if k' = k then vs else multiGet rest k

/-- Options consumed by the duplicate engines. -/
structure Options where
  dupes_no_hash : Bool
  dupes_sort_n : Bool
  show_n : Nat
deriving Repr

/-- The `sizes` grouping of `get_dupes`: every `(path, fileinfo)` pair of
the stream, grouped by `st_size` in encounter order. -/
def sizeGroups (records : List Record) : List (Option Nat × List (String × FileInfo)) :=
  records.foldl
    (fun m r => r.files.foldl (fun m fi => multiAppend m fi.st_size (r.path, fi)) m) []

/-- Sort order of the size buckets: descending by `x or 0`, or descending
by member count under `--dupes-sort-n`; stable, like `sorted`. -/
def sizeOrderLE (opt : Options) (m : List (Option Nat × List (String × FileInfo)))
    (a b : Option Nat) : Bool :=
  if opt.dupes_sort_n then (multiGet m b).length ≤ (multiGet m a).length
  else b.getD 0 ≤ a.getD 0

/-- One emitted duplicate group: its `(size, hashtext)` key and the full
file paths it holds. -/
abbrev DupeGroup := (Option Nat × HashVal) × List String

/-- Hash every file of one size bucket and group the joined file paths by
`(size, hashtext)` (the `hashed` defaultdict), threading the run state. -/
def hashBucket (fs : String → Option String) (opt : Options) (size : Option Nat) :
    List (String × FileInfo) → List DupeGroup → RunState →
    Except Unit (List DupeGroup × RunState)
  | [], m, st => .ok (m, st)
  | (path, fi) :: rest, m, st => do
      let filepath := path_join path fi.name
      let (h, st) ← find_hash fs st filepath fi opt.dupes_no_hash
      hashBucket fs opt size rest (multiAppend m (size, h) filepath) st

/-- Process the ordered size buckets: buckets with fewer than two files
are dropped before any hashing; each remaining bucket yields its groups
of two or more paths (possibly the empty list of groups). -/
def dupeBuckets (fs : String → Option String) (opt : Options)
    (m : List (Option Nat × List (String × FileInfo))) :
    List (Option Nat) → RunState → Except Unit (List (List DupeGroup) × RunState)
  | [], st => .ok ([], st)
  | size :: rest, st =>
      let bucket := multiGet m size
      if bucket.length < 2 then dupeBuckets fs opt m rest st
      else do
        let (g, st) ← hashBucket fs opt size bucket [] st
        let (out, st) ← dupeBuckets fs opt m rest st
        .ok ((g.filter (fun kv => 1 < kv.2.length)) :: out, st)

/-- Model of the generator `get_dupes(opt)`: the sequence of per-size
group collections it yields, in yield order. -/
def get_dupes (fs : String → Option String) (opt : Options) (records : List Record)
    (st : RunState) : Except Unit (List (List DupeGroup) × RunState) :=
  let m := sizeGroups records
  let order := isort (sizeOrderLE opt m) (m.map (·.1))
  dupeBuckets fs opt m order st

/-- The emission loop of the `dupes` mode: all groups of a bucket are
printed and counted, and only after a whole bucket is done does
`show_n` stop the loop (`might overshoot, but better to show complete
sets of dupes`). -/
def dupesEmit (show_n : Nat) : List (List DupeGroup) → Nat → List DupeGroup
  | [], _ => []
  | b :: rest, n =>
      b ++ (if show_n ≠ 0 && n + b.length ≥ show_n then [] else dupesEmit show_n rest (n + b.length))

/-- Model of the `dupes` mode's printed duplicate sets under `--show-n`. -/
def dupes (fs : String → Option String) (opt : Options) (records : List Record)
    (st : RunState) : Except Unit (List DupeGroup) := do
  let (buckets, _) ← get_dupes fs opt records st
  .ok (dupesEmit opt.show_n buckets 0)

/-- The hierarchical directory dict of `get_hier_db`, with the ordered
children dict flattened into the same inductive: `node files ch` is a
directory dict holding its `FILES` list and its string-keyed children
`ch`, where `ch` is a spine of `consF name child rest` cells recording
dict insertion order (`nilF` ends the spine).  The integer keys
`CHILD_HASH`/`CHILD_FILES`/`CHILD_BYTES` that `recur` writes are never
read back by the code (they are only written, and the second pass
recomputes them), so they are not part of the model. -/
inductive Tree where
  | nilF
  | consF (seg : String) (child : Tree) (rest : Tree)
  | node (files : List FileInfo) (children : Tree)
deriving DecidableEq, Repr

/-- Chain of fresh nodes for a path suffix that does not exist yet:
intermediate dicts get an empty `FILES` list, the leaf gets `files`. -/
def buildPath (files : List FileInfo) : List String → Tree
  | [] => .node files .nilF
  | seg :: rest => .node [] (.consF seg (buildPath files rest) .nilF)

/-- Insert one record into the hierarchical dict: descend along the path
segments, creating missing children at the end of their parent's dict
(Python dict insertion order), and replace the `FILES` list at the leaf. -/
def insTree (files : List FileInfo) : List String → Tree → Tree
  | segs, .node fls ch =>
      match segs with
      | [] => .node files ch
      | seg :: rest => .node fls (insTree files (seg :: rest) ch)
  | segs, .nilF =>
      match segs with
      | seg :: rest => .consF seg (buildPath files rest) .nilF
      | [] => .nilF
  | segs, .consF k c r =>
      match segs with
      | seg :: rest =>
          if k = seg then .consF k (insTree files rest c) r
          else .consF k c (insTree files (seg :: rest) r)
      | [] => .consF k c r

/-- Model of `get_hier_db(opt)`: fold the record stream into the
hierarchical dict, starting from a root with no files. -/
def get_hier_db (records : List Record) : Tree :=
  records.foldl (fun db r => insTree r.files (splitPath r.path) db) (.node [] .nilF)

/-- Ordered association update: replace in place or append. -/
def assocSet {κ ν : Type} [DecidableEq κ] : List (κ × ν) → κ → ν → List (κ × ν)
  | [], k, v => [(k, v)]
  | (k', v') :: rest, k, v =>
      if k' = k then (k, v) :: rest else (k', v') :: assocSet rest k v

/-- Ordered association lookup. -/
def assocGet {κ ν : Type} [DecidableEq κ] : List (κ × ν) → κ → Option ν
  | [], _ => none
  | (k', v') :: rest, k => if k' = k then some v' else assocGet rest k

/-- State threaded through `recur` and `dupe_dirs`: the run state of the
hash layer, the global `state.hashes` index mapping
`(child_bytes_total, child_hash)` to the paths recorded under that key
(in append order), and `state.path_node`. -/
structure DState where
  run : RunState
  hashes : List ((Nat × HashVal) × List String)
  pathNode : List (String × Tree)

/-- The guard `mode == "size"` at the heart of `recur`.  In the source
`mode` is the module-level decorator function `def mode(func)` (the
namesake local is `state.mode`, which `dupe_dirs` writes but nothing ever
reads), so this comparison of a function object with the string "size" is
always `False` and the "size" branch is dead code. -/
def modeEqSize : Bool := false

/-- The per-file half of `recur`'s loop body, over the `sorted` file
list: files whose stat failed (`st_size is None`) are skipped; the dead
"size" branch would append the integer size; the live branch hashes the
joined child path with its leading character stripped (`child_path[1:]`)
through `find_hash`. -/
def recurFiles (fs : String → Option String) (opt : Options) :
    List FileInfo → String → List HashVal → Nat → Nat → RunState →
    Except Unit ((List HashVal × Nat × Nat) × RunState)
  | [], _, hs, cnt, bts, run => .ok ((hs, cnt, bts), run)
  | fi :: rest, path, hs, cnt, bts, run =>
      match fi.st_size with
      | none => recurFiles fs opt rest path hs cnt bts run
      | some sz =>
          if modeEqSize then
            recurFiles fs opt rest path (hs ++ [.sizeVal sz]) (cnt + 1) (bts + sz) run
          else do
            let childPath := path_join path fi.name
            let (h, run) ← find_hash fs run (childPath.drop 1) fi opt.dupes_no_hash
            recurFiles fs opt rest path (hs ++ [h]) (cnt + 1) (bts + sz) run

/-- Combined body of `recur`: on a `node` it records `path_node[path]`,
folds the children (each child contributes its hash, count and bytes only
`if child_count:`), folds the sorted files, hashes the accumulated list
and records the path under `(child_bytes_total, child_hash)` in the
global index; on a children spine it accumulates the child contributions
in dict order.  A `node` result is the singleton list of its hash. -/
def recurGo (fs : String → Option String) (opt : Options) :
    Tree → String → DState → Except Unit ((List HashVal × Nat × Nat) × DState)
  | .nilF, _, st => .ok (([], 0, 0), st)
  | .consF seg c r, path, st => do
      let ((chs, cc, cb), st) ← recurGo fs opt c (path_join path seg) st
      let ((rhs, rc, rb), st) ← recurGo fs opt r path st
      if cc ≠ 0 then .ok ((chs ++ rhs, cc + rc, cb + rb), st)
      else .ok ((rhs, rc, rb), st)
  | .node files ch, path, st => do
      let st := { st with pathNode := assocSet st.pathNode path (.node files ch) }
      let ((hs, cnt, bts), st) ← recurGo fs opt ch path st
      let ((hs, cnt, bts), run) ← recurFiles fs opt (isort fileLE files) path hs cnt bts st.run
      let h := get_list_hash hs
      let st := { st with run := run, hashes := multiAppend st.hashes (bts, h) path }
      .ok (([h], cnt, bts), st)

/-- Model of `recur(state, node, path)` for a directory dict: its
`(child_hash, child_total, child_bytes_total)` result plus the updated
state.  (On a `node`, `recurGo` returns the singleton of the hash.) -/
def recur (fs : String → Option String) (opt : Options) (t : Tree) (path : String)
    (st : DState) : Except Unit ((HashVal × Nat × Nat) × DState) :=
  match recurGo fs opt t path st with
  | .error e => .error e
  | .ok ((hs, cnt, bts), st) => .ok ((hs.headD (get_list_hash []), cnt, bts), st)

/-- The skip test of `dupe_dirs`: `any(path.startswith(i) for i in seen)`
— a raw string-prefix test against every already-printed path. -/
def seenSkip (seen : List String) (path : String) : Bool :=
  seen.any (fun p => strStart p path)

/-- Candidate loop for one `(size, child_hash)` key: paths of the
snapshot that survive the `seen` prefix test are re-fingerprinted with
`recur` on their recorded `path_node` subtree and grouped by the
resulting hash (the `size_hashes` defaultdict). -/
def buildGroups (fs : String → Option String) (opt : Options) (seen : List String) :
    List String → List (HashVal × List String) → DState →
    Except Unit (List (HashVal × List String) × DState)
  | [], sh, st => .ok (sh, st)
  | path :: rest, sh, st =>
      if seenSkip seen path then buildGroups fs opt seen rest sh st
      else do
        let t := (assocGet st.pathNode path).getD (.node [] .nilF)
        let ((h, _, _), st) ← recur fs opt t path st
        buildGroups fs opt seen rest (multiAppend sh h path) st

/-- Emission for one key: groups with at least two paths are printed (the
block records `size` and the paths) and every printed path joins `seen`. -/
def printGroups (size : Nat) : List (HashVal × List String) → List String →
    List (Nat × List String) × List String
  | [], seen => ([], seen)
  | (_, paths) :: rest, seen =>
      if paths.length < 2 then printGroups size rest seen
      else
        let (out, seen') := printGroups size rest (seen ++ paths)
        ((size, paths) :: out, seen')

/-- One block of `dupe_dirs` output: the groups printed while processing
one `(size, child_hash)` key. -/
abbrev Block := List (Nat × List String)

/-- Descending sort order of the `(child_bytes_total, child_hash)` keys:
Python sorts the `(int, str)` tuples lexicographically in reverse.  The
relative order of two distinct hexdigest strings is opaque to the
collision-free digest model, so it is a parameter `hvGE` (only the size
component is fixed; no claim proved here depends on the tie-break). -/
def keyLE (hvGE : HashVal → HashVal → Bool) (a b : Nat × HashVal) : Bool :=
  if a.1 = b.1 then hvGE a.2 b.2 else b.1 < a.1

/-- Main loop of `dupe_dirs` over the sorted keys: keys whose current
(live) path list has fewer than two entries are skipped outright; for the
rest, a snapshot of the list is grouped by recomputed hash, groups of two
or more paths are printed, `shown` counts every processed key (printed or
not) and `--show-n` stops after a whole key. -/
def ddLoop (fs : String → Option String) (opt : Options) :
    List (Nat × HashVal) → DState → List String → Nat →
    Except Unit (List Block × DState × List String)
  | [], st, seen, _ => .ok ([], st, seen)
  | (size, h) :: rest, st, seen, shown =>
      if (multiGet st.hashes (size, h)).length < 2 then ddLoop fs opt rest st seen shown
      else do
        let snapshot := multiGet st.hashes (size, h)
        let (sh, st) ← buildGroups fs opt seen snapshot [] st
        let (blk, seen) := printGroups size sh seen
        let shown := shown + 1
        if opt.show_n ≠ 0 && shown ≥ opt.show_n then .ok ([blk], st, seen)
        else do
          let (blocks, st, seen') ← ddLoop fs opt rest st seen shown
          .ok (blk :: blocks, st, seen')

/-- Model of the `dupe_dirs` mode: build the hierarchical dict, run the
first `recur` pass from the root, sort the `(size, hash)` keys in
descending order, and run the reporting loop.  The output is the list of
printed blocks, one per processed key. -/
def dupe_dirs (fs : String → Option String) (opt : Options)
    (hvGE : HashVal → HashVal → Bool) (records : List Record) (run : RunState) :
    Except Unit (List Block) := do
  let db := get_hier_db records
  let st : DState := ⟨run, [], []⟩
  let (_, st) ← recur fs opt db "/" st
  let keys := isort (keyLE hvGE) (st.hashes.map (·.1))
  let (blocks, _, _) ← ddLoop fs opt keys st [] 0
  .ok blocks

/-! ## Concrete record streams used by the counterexamples and witnesses -/

/-- Decidable equality of exception results, so that concrete runs can be
compared by `decide`. -/
instance {ε α : Type} [DecidableEq ε] [DecidableEq α] : DecidableEq (Except ε α) :=
  fun a b =>
    match a, b with
    | .error x, .error y =>
        match decEq x y with
        | isTrue h => isTrue (by rw [h])
        | isFalse h => isFalse (by intro hc; cases hc; exact h rfl)
    | .ok x, .ok y =>
        match decEq x y with
        | isTrue h => isTrue (by rw [h])
        | isFalse h => isFalse (by intro hc; cases hc; exact h rfl)
    | .error _, .ok _ => isFalse (by intro hc; cases hc)
    | .ok _, .error _ => isFalse (by intro hc; cases hc)

/-- Options of a plain `--mode dupe_dirs` / `--mode dupes` run (no
`--dupes-no-hash`, no `--dupes-sort-n`, no `--show-n`). -/
def optPlain : Options := ⟨false, false, 0⟩

/-- Run state of an analysis without `--hash-db`. -/
def runNoDb : RunState := ⟨false, [], [], 0⟩

/-- Initial `dupe_dirs` state: empty `state.hashes` and `state.path_node`. -/
def dstate0 : DState := ⟨runNoDb, [], []⟩

/-- Filesystem given by a finite table of readable paths. -/
def fsTable (t : List (String × String)) : String → Option String :=
  fun p => assocGet t p

/-- A one-byte file.  Sizes, atimes and mtimes vary per scenario. -/
def mkFi (name : String) (sz : Nat) : FileInfo := ⟨name, some sz, some 0, some 0⟩

/-- Scenario for the `dupe_dirs` claims: `/A` and `/B` are identical
directories (file `big` plus subdirectory `s` containing `g` and `s/p`
containing `f`), and `/q` is a third directory identical to `/A/s`. -/
def recsDD : List Record :=
  [⟨"/A", [mkFi "big" 50]⟩, ⟨"/A/s", [mkFi "g" 2]⟩, ⟨"/A/s/p", [mkFi "f" 1]⟩,
   ⟨"/B", [mkFi "big" 50]⟩, ⟨"/B/s", [mkFi "g" 2]⟩, ⟨"/B/s/p", [mkFi "f" 1]⟩,
   ⟨"/q", [mkFi "g" 2]⟩, ⟨"/q/p", [mkFi "f" 1]⟩]

/-- Contents for `recsDD` (paths as `find_hash` sees them: the joined
child path with its leading "/" stripped). -/
def fsDD : String → Option String :=
  fsTable [("A/big", "B"), ("A/s/g", "G"), ("A/s/p/f", "F"),
           ("B/big", "B"), ("B/s/g", "G"), ("B/s/p/f", "F"),
           ("q/g", "G"), ("q/p/f", "F")]

/-! ## C6 — no-hash mode of `find_hash` -/

/-- C6: when the no-hash option is set, `find_hash` returns the digest
the SQL lookup on `(filepath, st_size, st_mtime)` finds in the hash DB,
and otherwise the fixed "no-hash" sentinel; in both cases it does not
read the file or compute a content hash (`get_hash` is not invoked, the
hash count is unchanged and no exception can arise) and inserts nothing
into the hash DB.  Stated for a call not yet memoized by the in-process
`lru_cache`; a memoized call just replays the recorded result. -/
theorem C6_no_hash_mode_reads_db_only (fs : String → Option String) (st : RunState)
    (filepath : String) (fi : FileInfo)
    (hmiss : memoLookup st.memo (filepath, fi, true) = none) :
    ∃ st' : RunState,
      find_hash fs st filepath fi true =
        .ok (((if st.dbOpen then dbLookup st.db filepath fi.st_size fi.st_mtime
               else none).getD .noHash), st') ∧
      st'.db = st.db ∧ st'.hashCount = st.hashCount := by
  unfold find_hash
  rw [hmiss]
  cases hdb : (if st.dbOpen then dbLookup st.db filepath fi.st_size fi.st_mtime else none) with
  | none =>
      exact ⟨{ st with memo := ((filepath, fi, true), .noHash) :: st.memo },
        by simp [hdb], rfl, rfl⟩
  | some h =>
      exact ⟨{ st with memo := ((filepath, fi, true), h) :: st.memo },
        by simp [hdb], rfl, rfl⟩

/-- Witness for C6: a fresh-memo call with a stored digest returns it,
with the DB and the hash count untouched. -/
theorem C6_no_hash_mode_reads_db_only_witness :
    ∃ st' : RunState,
      find_hash (fsTable []) ⟨true, [⟨"a/f", some 5, some 7, .sha1File "X"⟩], [], 0⟩
          "a/f" ⟨"f", some 5, some 0, some 7⟩ true =
        .ok (((if (true : Bool) then
                dbLookup [⟨"a/f", some 5, some 7, .sha1File "X"⟩] "a/f" (some 5) (some 7)
               else none).getD .noHash), st') ∧
      st'.db = [⟨"a/f", some 5, some 7, .sha1File "X"⟩] ∧ st'.hashCount = 0 :=
  C6_no_hash_mode_reads_db_only (fsTable []) ⟨true, _, [], 0⟩ "a/f" _ rfl

/-! ## C8 — `get_hash` on unreadable paths -/

/-- C8 counterexample: a truthy path that cannot be opened makes
`get_hash` raise (the `open` call is unguarded), instead of returning the
"NOFILEACCESS" sentinel the claim promises for every unreadable path. -/
theorem C8_counterexample_get_hash_raises :
    get_hash (fsTable []) (some "p") = .error () := rfl

/-- C8 amended: `get_hash` returns the "NOFILEACCESS" sentinel exactly
for a falsy path argument (the `None` marker produced by
`path_length_check` for over-long paths, or an empty string), without
touching the filesystem; for a truthy path that cannot be opened the
exception from `open` propagates to the caller. -/
theorem C8_sentinel_only_for_falsy_path (fs : String → Option String)
    (path : Option String) :
    (pyTruthy path = false → get_hash fs path = .ok .noAccess) ∧
    (pyTruthy path = true → fs (long_path (path.getD "")) = none →
      get_hash fs path = .error ()) := by
  constructor
  · intro h; simp [get_hash, h]
  · intro h h2; simp [get_hash, h, h2]

/-- Witness for C8 amended: the `None` marker yields the sentinel, an
unreadable real path yields the exception. -/
theorem C8_sentinel_only_for_falsy_path_witness :
    get_hash (fsTable []) none = .ok .noAccess ∧
    get_hash (fsTable []) (some "p") = .error () :=
  ⟨(C8_sentinel_only_for_falsy_path (fsTable []) none).1 rfl,
   (C8_sentinel_only_for_falsy_path (fsTable []) (some "p")).2 rfl rfl⟩

/-! ## C1 — the "size-only" first pass of `dupe_dirs` -/

/-- C1: the claim says the first bottom-up pass fingerprints each file by
its size and computes no content hashes.  In the code the guard
`mode == "size"` compares the module-level decorator function `mode`
with a string (the intended `state.mode` is written but never read), so
it is always `False`: already the first pass digests file content
through `find_hash`.  On a one-file tree the first pass performs one
`get_hash` computation and produces the content fingerprint, not the
size fingerprint. -/
theorem C1_first_pass_hashes_content :
    (recur (fsTable [("d/x", "X")]) optPlain
        (get_hier_db [⟨"/d", [mkFi "x" 1]⟩]) "/" dstate0).map
        (fun r => (r.1.1, r.2.run.hashCount)) =
      .ok (get_list_hash [get_list_hash [.sha1File "X"]], 1) ∧
    get_list_hash [get_list_hash [.sha1File "X"]] ≠
      get_list_hash [get_list_hash [.sizeVal 1]] :=
  ⟨rfl, by decide⟩

/-! ## C2 — emitted duplicate-directory groups -/

/-- C2: the claim says every printed `dupe_dirs` group holds at least two
distinct directory paths.  Because the always-false `mode == "size"`
guard makes both passes use identical fingerprints, the second pass
re-appends every re-fingerprinted path under its original
`(size, hash)` key, and a later key can reach the ≥2 threshold with the
same path recorded twice.  On `recsDD` the key of `/q/p` holds
`[/A/s/p, /B/s/p, /q/p, /A/s/p, /B/s/p, /q/p]` by the time it is
processed; the `/A`- and `/B`-prefixed entries are suppressed and the
printed "group" is `/q/p` listed twice — one directory, printed as its
own duplicate. -/
theorem C2_group_lists_same_dir_twice :
    dupe_dirs fsDD optPlain (fun _ _ => true) recsDD runNoDb =
      .ok [[(53, ["/A", "/B"])], [], [(1, ["/q/p", "/q/p"])]] ∧
    ¬ (["/q/p", "/q/p"] : List String).Nodup :=
  ⟨rfl, by decide⟩

/-! ## C3 — order sensitivity of the tree fingerprints -/

/-- Both record streams below carry the same two directory records, in
opposite order. -/
def recsOrdA : List Record := [⟨"/a", [mkFi "x" 1]⟩, ⟨"/b", [mkFi "y" 1]⟩]

/-- The same records as `recsOrdA`, reversed. -/
def recsOrdB : List Record := [⟨"/b", [mkFi "y" 1]⟩, ⟨"/a", [mkFi "x" 1]⟩]

/-- Contents for the order-sensitivity scenario. -/
def fsOrd : String → Option String := fsTable [("a/x", "X"), ("b/y", "Y")]

/-- C3 counterexample: two streams with the same directory records in
different order give the root a different fingerprint, because
`get_hier_db` keys children in record-encounter order and `recur` visits
them in that dict order — sibling order is not canonicalized.  (Claim:
any reordering of the same records yields identical fingerprints for
every node.) -/
theorem C3_counterexample_record_order_changes_root_fingerprint :
    recsOrdB.Perm recsOrdA ∧
    (recur fsOrd optPlain (get_hier_db recsOrdA) "/" dstate0).map (fun r => r.1.1) ≠
      (recur fsOrd optPlain (get_hier_db recsOrdB) "/" dstate0).map (fun r => r.1.1) :=
  ⟨by decide, by decide⟩

/-! ## C4 / C5 — duplicate-file grouping -/

/-- Two file paths land in one emitted duplicate set of a `get_dupes`
run. -/
abbrev inSameGroup (out : List (List DupeGroup)) (fp₁ fp₂ : String) : Prop :=
  ∃ b ∈ out, ∃ g ∈ b, fp₁ ∈ g.2 ∧ fp₂ ∈ g.2

/-- The file shared by the `get_dupes` scenarios: 5 bytes, mtime 7. -/
def f5 : FileInfo := ⟨"f", some 5, some 0, some 7⟩

/-- Options of a `--dupes-no-hash` run. -/
def optNoHash : Options := ⟨true, false, 0⟩

/-- C4 counterexample: in no-hash mode with a hash DB that caches a
digest for `a/f` only, the two same-size files get different digests
(`sha1File "X"` vs the "no-hash" sentinel), so no emitted group contains
them — the claim's "or both are in no-hash mode with equal size" side of
the iff fails. -/
theorem C4_counterexample_cached_digest_beats_no_hash_mode :
    (get_dupes (fsTable []) optNoHash [⟨"a", [f5]⟩, ⟨"b", [f5]⟩]
        ⟨true, [⟨"a/f", some 5, some 7, .sha1File "X"⟩], [], 0⟩).map (fun r => r.1) =
      .ok [[]] ∧
    ¬ inSameGroup [[]] "a/f" "b/f" :=
  ⟨rfl, by decide⟩

/-- C5 counterexample: two distinct same-size files whose cached digests
are both the "NOFILEACCESS" sentinel are bucketed by the sentinel like
any digest and emitted together as one confirmed duplicate set — the
sentinel is treated as a genuine content match. -/
theorem C5_counterexample_sentinel_files_emitted_together :
    (get_dupes (fsTable []) optPlain [⟨"a", [f5]⟩, ⟨"b", [f5]⟩]
        ⟨true, [⟨"a/f", some 5, some 7, .noAccess⟩, ⟨"b/f", some 5, some 7, .noAccess⟩],
         [], 0⟩).map (fun r => r.1) =
      .ok [[((some 5, .noAccess), ["a/f", "b/f"])]] ∧
    inSameGroup [[((some 5, .noAccess), ["a/f", "b/f"])]] "a/f" "b/f" :=
  ⟨rfl, by decide⟩

/-! ## C7 — hash-cache idempotence -/

/-- FileInfo as the first call of the C7 scenario sees it. -/
def fiA : FileInfo := ⟨"f", some 1, some 0, some 0⟩

/-- Same name, size and mtime as `fiA`, but a different atime, so the
`lru_cache` key (the whole `FileInfo` tuple) differs. -/
def fiB : FileInfo := ⟨"f", some 1, some 1, some 0⟩

/-- C7 counterexample: without a hash DB, two `find_hash` calls that
agree on path, size and mtime but differ in another stat field (atime)
miss both the `lru_cache` (keyed by the whole tuple) and the absent DB,
so the content hash is computed twice (`hashCount = 2`), against the
claim's "at most once"; the digests do agree. -/
theorem C7_counterexample_hash_computed_twice :
    fiA.st_size = fiB.st_size ∧ fiA.st_mtime = fiB.st_mtime ∧ fiA ≠ fiB ∧
    ((find_hash (fsTable [("f", "C")]) runNoDb "f" fiA false).bind
        (fun p => find_hash (fsTable [("f", "C")]) p.2 "f" fiB false)).map
        (fun p => (p.1, p.2.hashCount)) = .ok (.sha1File "C", 2) :=
  ⟨rfl, rfl, by decide, rfl⟩

/-! ## The pure characterization of `find_hash` within one run -/

/-- The value `find_hash` returns for a key `(fp, sz, mt)` during a run
that started with DB rows `db₀`: the initially stored digest if the SQL
lookup finds one, else the "no-hash" sentinel in no-hash mode, else the
content digest of the file (or the propagated `open` exception). -/
def pureFind (fs : String → Option String) (db₀ : List DbRow) (dbo nh : Bool)
    (fp : String) (sz : Option Nat) (mt : Option Int) : Except Unit HashVal :=
  match (if dbo then dbLookup db₀ fp sz mt else none) with
  | some h => .ok h
  | none => if nh then .ok .noHash else get_hash fs (some fp)

/-- Invariant of the run state reachable from a fresh memo and DB rows
`db₀` in a run with fixed `dbo = dbOpen` and `nh = dupes_no_hash`: the
initial rows are still found, every findable row and every memo entry
agrees with `pureFind`. -/
def Inv (fs : String → Option String) (db₀ : List DbRow) (dbo nh : Bool)
    (st : RunState) : Prop :=
  st.dbOpen = dbo ∧
  (∀ fp sz mt h, dbLookup db₀ fp sz mt = some h → dbLookup st.db fp sz mt = some h) ∧
  (∀ fp sz mt h, dbo = true → dbLookup st.db fp sz mt = some h →
      dbLookup db₀ fp sz mt = some h ∨
        (dbLookup db₀ fp sz mt = none ∧ nh = false ∧ get_hash fs (some fp) = .ok h)) ∧
  (∀ fp fi h, memoLookup st.memo (fp, fi, nh) = some h →
      pureFind fs db₀ dbo nh fp fi.st_size fi.st_mtime = .ok h)

/-- The initial state of a run satisfies the invariant. -/
theorem Inv_init (fs : String → Option String) (db₀ : List DbRow) (dbo nh : Bool) :
    Inv fs db₀ dbo nh ⟨dbo, db₀, [], 0⟩ := by
  refine ⟨rfl, fun _ _ _ _ h => h, fun fp sz mt h _ hl => .inl hl, fun _ _ _ h => ?_⟩
  simp [memoLookup] at h

/-- Appending one row to the DB only affects lookups the old rows
missed. -/
theorem dbLookup_append (l : List DbRow) (r : DbRow) (fp : String) (sz : Option Nat)
    (mt : Option Int) :
    dbLookup (l ++ [r]) fp sz mt =
      match dbLookup l fp sz mt with
      | some h => some h
      | none =>
          if r.filepath = fp && sqlEqN r.st_size sz && sqlEqI r.st_mtime mt then
            some r.hash
          else none := by
  induction l with
  | nil => simp [dbLookup]
  | cons x xs ih =>
      by_cases hx : (x.filepath = fp && sqlEqN x.st_size sz && sqlEqI x.st_mtime mt) = true
      · simp [dbLookup, hx]
      · simp only [Bool.not_eq_true] at hx
        simp [dbLookup, hx, ih]

/-- A successful `find_hash` returns exactly the `pureFind` value of its
key and preserves the run invariant. -/
theorem find_hash_ok_spec {fs : String → Option String} {db₀ : List DbRow}
    {dbo nh : Bool} {st st' : RunState} {fp : String} {fi : FileInfo} {hv : HashVal}
    (hInv : Inv fs db₀ dbo nh st)
    (hok : find_hash fs st fp fi nh = .ok (hv, st')) :
    pureFind fs db₀ dbo nh fp fi.st_size fi.st_mtime = .ok hv ∧
      Inv fs db₀ dbo nh st' := by
  obtain ⟨hOpen, hPres, hChar, hMemo⟩ := hInv
  cases hm : memoLookup st.memo (fp, fi, nh) with
  | some h =>
      simp only [find_hash, hm, Except.ok.injEq, Prod.mk.injEq] at hok
      obtain ⟨rfl, rfl⟩ := hok
      exact ⟨hMemo _ _ _ hm, hOpen, hPres, hChar, hMemo⟩
  | none =>
      cases hs : (if st.dbOpen then dbLookup st.db fp fi.st_size fi.st_mtime else none) with
      | some h =>
          simp only [find_hash, hm, hs, Except.ok.injEq, Prod.mk.injEq] at hok
          obtain ⟨rfl, rfl⟩ := hok
          have hdbo : st.dbOpen = true := by
            by_contra hcon
            simp only [Bool.not_eq_true] at hcon
            rw [hcon] at hs
            simp at hs
          have hdbo2 : dbo = true := by rw [← hOpen]; exact hdbo
          have hs2 : dbLookup st.db fp fi.st_size fi.st_mtime = some h := by
            rw [hdbo] at hs
            simpa using hs
          have hpf : pureFind fs db₀ dbo nh fp fi.st_size fi.st_mtime = .ok h := by
            rcases hChar _ _ _ _ hdbo2 hs2 with h0 | ⟨h0, hnh, hg⟩
            · simp [pureFind, hdbo2, h0]
            · simp [pureFind, hdbo2, h0, hnh, hg]
          refine ⟨hpf, hOpen, hPres, hChar, ?_⟩
          intro fp' fi' h' hl
          by_cases hk : ((fp, fi, nh) : MemoKey) = (fp', fi', nh)
          · have h1 : fp = fp' := congrArg Prod.fst hk
            have h2 : fi = fi' := congrArg (fun x : MemoKey => x.2.1) hk
            subst h1; subst h2
            simp only [memoLookup, if_pos rfl] at hl
            obtain rfl := Option.some.inj hl
            exact hpf
          · simp only [memoLookup, if_neg hk] at hl
            exact hMemo _ _ _ hl
      | none =>
          have hdb0 : dbo = true → dbLookup db₀ fp fi.st_size fi.st_mtime = none := by
            intro hd
            cases h0 : dbLookup db₀ fp fi.st_size fi.st_mtime with
            | none => rfl
            | some h =>
                have := hPres _ _ _ _ h0
                rw [hOpen, hd] at hs
                simp [this] at hs
          cases hnh : nh with
          | true =>
              subst hnh
              simp only [find_hash, hm, hs, if_pos rfl, Except.ok.injEq,
                Prod.mk.injEq] at hok
              obtain ⟨rfl, rfl⟩ := hok
              have hpf : pureFind fs db₀ dbo true fp fi.st_size fi.st_mtime =
                  .ok .noHash := by
                cases hd : dbo with
                | false => simp [pureFind, hd]
                | true => simp [pureFind, hd, hdb0 hd]
              refine ⟨hpf, hOpen, hPres, hChar, ?_⟩
              intro fp' fi' h' hl
              by_cases hk : ((fp, fi, true) : MemoKey) = (fp', fi', true)
              · have h1 : fp = fp' := congrArg Prod.fst hk
                have h2 : fi = fi' := congrArg (fun x : MemoKey => x.2.1) hk
                subst h1; subst h2
                simp only [memoLookup, if_pos rfl] at hl
                obtain rfl := Option.some.inj hl
                exact hpf
              · simp only [memoLookup, if_neg hk] at hl
                exact hMemo _ _ _ hl
          | false =>
              subst hnh
              cases hg : get_hash fs (some fp) with
              | error e =>
                  simp only [find_hash, hm, hs, hg, Bool.false_eq_true, if_false] at hok
                  exact Except.noConfusion hok
              | ok h =>
                  simp only [find_hash, hm, hs, hg, Bool.false_eq_true, if_false,
                    Except.ok.injEq, Prod.mk.injEq] at hok
                  obtain ⟨rfl, rfl⟩ := hok
                  have hpf : pureFind fs db₀ dbo false fp fi.st_size fi.st_mtime =
                      .ok h := by
                    cases hd : dbo with
                    | false => simp [pureFind, hd, hg]
                    | true => simp [pureFind, hd, hdb0 hd, hg]
                  refine ⟨hpf, hOpen, ?_, ?_, ?_⟩
                  · intro fp' sz' mt' h' h0
                    dsimp only
                    by_cases hdb : st.dbOpen = true
                    · rw [if_pos hdb, dbLookup_append, hPres _ _ _ _ h0]
                    · rw [if_neg hdb]
                      exact hPres _ _ _ _ h0
                  · intro fp' sz' mt' h' hd hl
                    have hdb : st.dbOpen = true := hOpen.trans hd
                    dsimp only at hl
                    rw [if_pos hdb, dbLookup_append] at hl
                    cases h0 : dbLookup st.db fp' sz' mt' with
                    | some hh =>
                        simp only [h0] at hl
                        obtain rfl := Option.some.inj hl
                        exact hChar _ _ _ _ hd h0
                    | none =>
                        simp only [h0] at hl
                        by_cases hrow :
                            ((fp : String) = fp' && sqlEqN fi.st_size sz' &&
                              sqlEqI fi.st_mtime mt') = true
                        · rw [if_pos hrow] at hl
                          obtain rfl := Option.some.inj hl
                          have hfp : fp = fp' := by
                            simp only [Bool.and_eq_true, decide_eq_true_eq] at hrow
                            exact hrow.1.1
                          right
                          refine ⟨?_, rfl, hfp ▸ hg⟩
                          cases h1 : dbLookup db₀ fp' sz' mt' with
                          | none => rfl
                          | some hh =>
                              rw [hPres _ _ _ _ h1] at h0
                              cases h0
                        · rw [if_neg hrow] at hl
                          cases hl
                  · intro fp' fi' h' hl
                    by_cases hk : ((fp, fi, false) : MemoKey) = (fp', fi', false)
                    · have h1 : fp = fp' := congrArg Prod.fst hk
                      have h2 : fi = fi' := congrArg (fun x : MemoKey => x.2.1) hk
                      subst h1; subst h2
                      simp only [memoLookup, if_pos rfl] at hl
                      obtain rfl := Option.some.inj hl
                      exact hpf
                    · simp only [memoLookup, if_neg hk] at hl
                      exact hMemo _ _ _ hl

/-- Components of an equality of successful `(value, state)` results. -/
theorem okPair_inj {α β ε : Type} {a c : α} {b d : β}
    (h : (Except.ok (a, b) : Except ε (α × β)) = .ok (c, d)) : a = c ∧ b = d := by
  have h2 := Except.ok.inj h
  exact ⟨congrArg Prod.fst h2, congrArg Prod.snd h2⟩

/-- A memoized `find_hash` call replays the recorded digest and leaves
the state unchanged. -/
theorem find_hash_memo_hit (fs : String → Option String) {st : RunState} {fp : String}
    {fi : FileInfo} {nh : Bool} {h : HashVal}
    (hm : memoLookup st.memo (fp, fi, nh) = some h) :
    find_hash fs st fp fi nh = .ok (h, st) := by
  simp [find_hash, hm]

/-- An unmemoized call whose key the open DB resolves returns the stored
digest, only extending the memo. -/
theorem find_hash_db_hit (fs : String → Option String) {st : RunState} {fp : String}
    {fi : FileInfo} {nh : Bool} {h : HashVal}
    (hm : memoLookup st.memo (fp, fi, nh) = none) (hdb : st.dbOpen = true)
    (hl : dbLookup st.db fp fi.st_size fi.st_mtime = some h) :
    find_hash fs st fp fi nh =
      .ok (h, { st with memo := ((fp, fi, nh), h) :: st.memo }) := by
  simp [find_hash, hm, hdb, hl]

/-- State accounting of one successful `find_hash` call: the DB handle is
unchanged, the key is memoized afterwards, and either nothing was
computed (hash count and DB rows unchanged) or exactly one `get_hash`
ran, with the digest row appended to an open DB whose lookup had missed. -/
theorem find_hash_state_cases {fs : String → Option String} {st st' : RunState}
    {fp : String} {fi : FileInfo} {nh : Bool} {hv : HashVal}
    (hok : find_hash fs st fp fi nh = .ok (hv, st')) :
    st'.dbOpen = st.dbOpen ∧
    memoLookup st'.memo (fp, fi, nh) = some hv ∧
    ((st'.hashCount = st.hashCount ∧ st'.db = st.db) ∨
      (st'.hashCount = st.hashCount + 1 ∧
        (st.dbOpen = true → dbLookup st.db fp fi.st_size fi.st_mtime = none) ∧
        st'.db =
          (if st.dbOpen then st.db ++ [⟨fp, fi.st_size, fi.st_mtime, hv⟩]
           else st.db))) := by
  cases hm : memoLookup st.memo (fp, fi, nh) with
  | some h =>
      rw [find_hash_memo_hit fs hm] at hok
      obtain ⟨rfl, rfl⟩ := okPair_inj hok
      exact ⟨rfl, hm, .inl ⟨rfl, rfl⟩⟩
  | none =>
      cases hs : (if st.dbOpen then dbLookup st.db fp fi.st_size fi.st_mtime else none) with
      | some h =>
          simp only [find_hash, hm, hs] at hok
          obtain ⟨rfl, rfl⟩ := okPair_inj hok
          exact ⟨rfl, by simp [memoLookup], .inl ⟨rfl, rfl⟩⟩
      | none =>
          cases hnh : nh with
          | true =>
              subst hnh
              simp only [find_hash, hm, hs, if_pos rfl] at hok
              obtain ⟨rfl, rfl⟩ := okPair_inj hok
              exact ⟨rfl, by simp [memoLookup], .inl ⟨rfl, rfl⟩⟩
          | false =>
              subst hnh
              cases hg : get_hash fs (some fp) with
              | error e =>
                  simp only [find_hash, hm, hs, hg, Bool.false_eq_true, if_false] at hok
                  exact Except.noConfusion hok
              | ok h =>
                  simp only [find_hash, hm, hs, hg, Bool.false_eq_true, if_false] at hok
                  obtain ⟨rfl, rfl⟩ := okPair_inj hok
                  refine ⟨rfl, by simp [memoLookup], .inr ⟨rfl, ?_, rfl⟩⟩
                  intro hdb
                  rw [hdb] at hs
                  simpa using hs

/-- C7 amended: two `find_hash` calls in one run that agree on file path,
size and mtime return the same digest; the content hash is computed at
most once across the two calls provided the calls pass the identical
stat tuple (the `lru_cache` key) or a hash DB is open and the shared
size and mtime are non-null (so the SQL lookup can find the row the
first call inserted).  The original claim's unconditional "at most once"
fails: see the counterexample, where no DB is open and the tuples differ
in atime. -/
theorem C7_cache_idempotent_with_db_or_equal_key {fs : String → Option String}
    {db₀ : List DbRow} {dbo nh : Bool} {st st₁ st₂ : RunState} {fp : String}
    {fi₁ fi₂ : FileInfo} {hv₁ hv₂ : HashVal}
    (hInv : Inv fs db₀ dbo nh st)
    (hsz : fi₁.st_size = fi₂.st_size) (hmt : fi₁.st_mtime = fi₂.st_mtime)
    (h₁ : find_hash fs st fp fi₁ nh = .ok (hv₁, st₁))
    (h₂ : find_hash fs st₁ fp fi₂ nh = .ok (hv₂, st₂)) :
    hv₁ = hv₂ ∧
    ((fi₁ = fi₂ ∨ (dbo = true ∧ fi₁.st_size ≠ none ∧ fi₁.st_mtime ≠ none)) →
      st₂.hashCount ≤ st.hashCount + 1) := by
  obtain ⟨hpf₁, hInv₁⟩ := find_hash_ok_spec hInv h₁
  obtain ⟨hpf₂, hInv₂⟩ := find_hash_ok_spec hInv₁ h₂
  have hvv : hv₁ = hv₂ := by
    rw [hsz, hmt] at hpf₁
    rw [hpf₁] at hpf₂
    exact Except.ok.inj hpf₂
  refine ⟨hvv, ?_⟩
  obtain ⟨hO₁, hM₁, hC₁⟩ := find_hash_state_cases h₁
  rintro (rfl | ⟨hd, hszS, hmtS⟩)
  · have heq := find_hash_memo_hit fs hM₁
    rw [h₂] at heq
    obtain ⟨-, rfl⟩ := okPair_inj heq
    rcases hC₁ with ⟨hc, -⟩ | ⟨hc, -, -⟩ <;> omega
  · rcases hC₁ with ⟨hc, -⟩ | ⟨hc, hnone, hdbeq⟩
    · obtain ⟨-, -, hC₂⟩ := find_hash_state_cases h₂
      rcases hC₂ with ⟨hc₂, -⟩ | ⟨hc₂, -, -⟩ <;> omega
    · have hdb1 : st.dbOpen = true := hInv.1.trans hd
      rw [if_pos hdb1] at hdbeq
      have hlook : dbLookup st₁.db fp fi₂.st_size fi₂.st_mtime = some hv₁ := by
        rw [← hsz, ← hmt, hdbeq, dbLookup_append, hnone hdb1]
        obtain ⟨a, ha⟩ := Option.ne_none_iff_exists'.1 hszS
        obtain ⟨b, hb⟩ := Option.ne_none_iff_exists'.1 hmtS
        simp [ha, hb, sqlEqN, sqlEqI]
      cases hm₂ : memoLookup st₁.memo (fp, fi₂, nh) with
      | some h =>
          have heq := find_hash_memo_hit fs hm₂
          rw [h₂] at heq
          obtain ⟨-, rfl⟩ := okPair_inj heq
          omega
      | none =>
          have heq := find_hash_db_hit fs hm₂ (hO₁.trans hdb1) hlook
          rw [h₂] at heq
          obtain ⟨-, rfl⟩ := okPair_inj heq
          simp only []
          omega

/-- State after the first C7-witness call: digest computed, row stored,
key memoized. -/
def st1W : RunState :=
  ⟨true, [⟨"f", some 1, some 0, .sha1File "C"⟩],
   [(("f", fiA, false), .sha1File "C")], 1⟩

/-- State after the second C7-witness call: only the memo grew. -/
def st2W : RunState :=
  ⟨true, [⟨"f", some 1, some 0, .sha1File "C"⟩],
   [(("f", fiB, false), .sha1File "C"), (("f", fiA, false), .sha1File "C")], 1⟩

/-- Witness for C7 amended: with an open, initially empty hash DB, the
first call computes and stores the digest and the second call (different
atime) finds the stored row: one computation in total. -/
theorem C7_cache_idempotent_with_db_or_equal_key_witness :
    HashVal.sha1File "C" = HashVal.sha1File "C" ∧
    ((fiA = fiB ∨ (true = true ∧ fiA.st_size ≠ none ∧ fiA.st_mtime ≠ none)) →
      st2W.hashCount ≤ (0 : Nat) + 1) :=
  @C7_cache_idempotent_with_db_or_equal_key (fsTable [("f", "C")]) [] true false
    ⟨true, [], [], 0⟩ st1W st2W "f" fiA fiB (.sha1File "C") (.sha1File "C")
    (Inv_init (fsTable [("f", "C")]) [] true false) rfl rfl rfl rfl

/-! ## Multimap and sorting lemmas -/

theorem multiGet_multiAppend {κ ν : Type} [DecidableEq κ] (m : List (κ × List ν))
    (k k' : κ) (v : ν) :
    multiGet (multiAppend m k v) k' =
      if k' = k then multiGet m k' ++ [v] else multiGet m k' := by
  induction m with
  | nil =>
      by_cases h : k' = k
      · subst h; simp [multiAppend, multiGet]
      · simp [multiAppend, multiGet, h, Ne.symm h]
  | cons kv rest ih =>
      obtain ⟨k0, vs⟩ := kv
      by_cases h0 : k0 = k
      · subst h0
        by_cases h1 : k' = k0
        · subst h1; simp [multiAppend, multiGet]
        · simp [multiAppend, multiGet, h1, Ne.symm h1]
      · by_cases h1 : k0 = k'
        · subst h1
          have : ¬ k0 = k := h0
          simp [multiAppend, multiGet, h0, this, Ne.symm h0]
        · simp [multiAppend, multiGet, h0, h1, ih]

theorem multiGet_mem {κ ν : Type} [DecidableEq κ] {m : List (κ × List ν)} {k : κ}
    (h : multiGet m k ≠ []) : (k, multiGet m k) ∈ m := by
  induction m with
  | nil => simp [multiGet] at h
  | cons kv rest ih =>
      obtain ⟨k0, vs⟩ := kv
      by_cases h0 : k0 = k
      · subst h0
        simp only [multiGet, if_pos rfl] at h ⊢
        exact .head _
      · simp only [multiGet, if_neg h0] at h ⊢
        exact .tail _ (ih h)

theorem mem_key_of_multiGet {κ ν : Type} [DecidableEq κ] {m : List (κ × List ν)} {k : κ}
    (h : multiGet m k ≠ []) : k ∈ m.map Prod.fst := by
  have := multiGet_mem h
  exact List.mem_map.2 ⟨(k, multiGet m k), this, rfl⟩

theorem multiGet_of_mem {κ ν : Type} [DecidableEq κ] {m : List (κ × List ν)} {k : κ}
    {vs : List ν} (hnd : (m.map Prod.fst).Nodup) (h : (k, vs) ∈ m) :
    multiGet m k = vs := by
  induction m with
  | nil => cases h
  | cons kv rest ih =>
      obtain ⟨k0, vs0⟩ := kv
      rw [List.mem_cons] at h
      rcases h with h | h
      · cases h
        simp [multiGet]
      · have hk : k ≠ k0 := by
          intro hc
          subst hc
          have : k ∈ rest.map Prod.fst := List.mem_map.2 ⟨(k, vs), h, rfl⟩
          exact (List.nodup_cons.1 hnd).1 this
        simp only [multiGet, if_neg (Ne.symm hk)]
        exact ih (List.nodup_cons.1 hnd).2 h

theorem mem_keys_multiAppend {κ ν : Type} [DecidableEq κ] {m : List (κ × List ν)}
    {k k' : κ} {v : ν} :
    k' ∈ (multiAppend m k v).map Prod.fst ↔ k' ∈ m.map Prod.fst ∨ k' = k := by
  induction m with
  | nil => simp [multiAppend]
  | cons kv rest ih =>
      obtain ⟨k0, vs⟩ := kv
      by_cases h0 : k0 = k
      · subst h0
        have hred : multiAppend ((k0, vs) :: rest) k0 v = (k0, vs ++ [v]) :: rest := by
          simp [multiAppend]
        rw [hred]
        simp only [List.map_cons, List.mem_cons]
        tauto
      · simp only [multiAppend, if_neg h0, List.map_cons, List.mem_cons, ih]
        tauto

theorem keysNodup_multiAppend {κ ν : Type} [DecidableEq κ] {m : List (κ × List ν)}
    {k : κ} {v : ν} (hnd : (m.map Prod.fst).Nodup) :
    ((multiAppend m k v).map Prod.fst).Nodup := by
  induction m with
  | nil => simp [multiAppend]
  | cons kv rest ih =>
      obtain ⟨k0, vs⟩ := kv
      obtain ⟨hk0, hrest⟩ := List.nodup_cons.1 hnd
      by_cases h0 : k0 = k
      · subst h0
        simpa [multiAppend] using hnd
      · simp only [multiAppend, if_neg h0, List.map_cons, List.nodup_cons]
        refine ⟨fun hc => ?_, ih hrest⟩
        rcases mem_keys_multiAppend.1 hc with hc | hc
        · exact hk0 hc
        · exact h0 hc

theorem two_le_length_of_mem_ne {α : Type} {l : List α} {a b : α}
    (ha : a ∈ l) (hb : b ∈ l) (hne : a ≠ b) : 2 ≤ l.length := by
  induction l with
  | nil => cases ha
  | cons x xs ih =>
      rw [List.mem_cons] at ha hb
      rcases ha with rfl | ha
      · rcases hb with hb | hb
        · exact absurd hb.symm hne
        · have : 1 ≤ xs.length := List.length_pos.2 (List.ne_nil_of_mem hb)
          simp only [List.length_cons]
          omega
      · have : 1 ≤ xs.length := List.length_pos.2 (List.ne_nil_of_mem ha)
        simp only [List.length_cons]
        omega

theorem insertLE_perm {α : Type} (le : α → α → Bool) (x : α) (l : List α) :
    (insertLE le x l).Perm (x :: l) := by
  induction l with
  | nil => exact .refl _
  | cons y ys ih =>
      by_cases h : le x y = true
      · simp [insertLE, h]
      · simp only [insertLE, h, Bool.false_eq_true, if_false]
        exact (ih.cons y).trans (List.Perm.swap x y ys)

theorem isort_perm {α : Type} (le : α → α → Bool) (l : List α) :
    (isort le l).Perm l := by
  induction l with
  | nil => exact .refl _
  | cons x xs ih => exact (insertLE_perm le x (isort le xs)).trans (ih.cons x)

theorem filter_map_comm {α β : Type} (f : α → β) (p : β → Bool) (l : List α) :
    (l.map f).filter p = (l.filter (fun a => p (f a))).map f := by
  induction l with
  | nil => rfl
  | cons a as ih =>
      by_cases h : p (f a) = true <;> simp [h, ih]

/-! ## Characterization of `get_dupes` -/

/-- All `(directory path, file)` pairs of a record stream, in stream
order — the pairs `get_dupes` iterates. -/
def entries : List Record → List (String × FileInfo)
  | [] => []
  | r :: rest => r.files.map (fun fi => (r.path, fi)) ++ entries rest

theorem sizeGroups_inner (path : String) (files : List FileInfo) (s : Option Nat)
    (m0 : List (Option Nat × List (String × FileInfo))) :
    multiGet (files.foldl (fun m fi => multiAppend m fi.st_size (path, fi)) m0) s =
      multiGet m0 s ++
        (files.filter (fun fi => fi.st_size = s)).map (fun fi => (path, fi)) := by
  induction files generalizing m0 with
  | nil => simp
  | cons fi rest ih =>
      simp only [List.foldl_cons, ih, multiGet_multiAppend]
      by_cases h : s = fi.st_size
      · simp [h, List.filter_cons]
      · have h2 : ¬ (fi.st_size = s) := fun hc => h hc.symm
        simp [h, List.filter_cons, h2]

theorem sizeGroups_outer (recs : List Record) (s : Option Nat)
    (m0 : List (Option Nat × List (String × FileInfo))) :
    multiGet
        (recs.foldl
          (fun m r => r.files.foldl (fun m fi => multiAppend m fi.st_size (r.path, fi)) m)
          m0) s =
      multiGet m0 s ++ (entries recs).filter (fun e => e.2.st_size = s) := by
  induction recs generalizing m0 with
  | nil => simp [entries]
  | cons r rest ih =>
      simp only [List.foldl_cons, ih, sizeGroups_inner, entries, List.filter_append,
        List.append_assoc]
      rw [filter_map_comm]

/-- The size buckets of `get_dupes` hold exactly the stream's pairs of
that size, in stream order. -/
theorem sizeGroups_multiGet (recs : List Record) (s : Option Nat) :
    multiGet (sizeGroups recs) s = (entries recs).filter (fun e => e.2.st_size = s) := by
  have := sizeGroups_outer recs s []
  simpa [sizeGroups] using this

/-- The digest `find_hash` resolves for one `(path, file)` pair of a
`get_dupes` run (a pure function of the initial DB rows). -/
def pureDigest (fs : String → Option String) (db₀ : List DbRow) (dbo nh : Bool)
    (e : String × FileInfo) : Except Unit HashVal :=
  pureFind fs db₀ dbo nh (path_join e.1 e.2.name) e.2.st_size e.2.st_mtime

/-- The `hashed` grouping of one size bucket, computed from `pureDigest`
(the error branch is unreachable in a run that succeeded). -/
def pureHashed (fs : String → Option String) (db₀ : List DbRow) (dbo nh : Bool)
    (size : Option Nat) (bucket : List (String × FileInfo)) : List DupeGroup :=
  bucket.foldl
    (fun m e =>
      match pureDigest fs db₀ dbo nh e with
      | .ok h => multiAppend m (size, h) (path_join e.1 e.2.name)
      | .error _ => m) []

theorem hashBucket_spec {fs : String → Option String} {db₀ : List DbRow} {dbo : Bool}
    {opt : Options} {size : Option Nat} {bucket : List (String × FileInfo)}
    {m0 g : List DupeGroup} {st st' : RunState}
    (hInv : Inv fs db₀ dbo opt.dupes_no_hash st)
    (hok : hashBucket fs opt size bucket m0 st = .ok (g, st')) :
    Inv fs db₀ dbo opt.dupes_no_hash st' ∧
      g = bucket.foldl
        (fun m e =>
          match pureDigest fs db₀ dbo opt.dupes_no_hash e with
          | .ok h => multiAppend m (size, h) (path_join e.1 e.2.name)
          | .error _ => m) m0 := by
  induction bucket generalizing m0 st with
  | nil =>
      simp only [hashBucket, Except.ok.injEq, Prod.mk.injEq] at hok
      obtain ⟨rfl, rfl⟩ := hok
      exact ⟨hInv, rfl⟩
  | cons e rest ih =>
      obtain ⟨path, fi⟩ := e
      cases hf : find_hash fs st (path_join path fi.name) fi opt.dupes_no_hash with
      | error u =>
          simp only [hashBucket, hf, bind, Except.bind] at hok
          exact Except.noConfusion hok
      | ok pr =>
          obtain ⟨h, st1⟩ := pr
          obtain ⟨hpf, hInv1⟩ := find_hash_ok_spec hInv hf
          simp only [hashBucket, hf, bind, Except.bind] at hok
          obtain ⟨hInv', hg⟩ := ih hInv1 hok
          refine ⟨hInv', ?_⟩
          rw [hg]
          simp only [List.foldl_cons]
          have hpd : pureDigest fs db₀ dbo opt.dupes_no_hash (path, fi) = .ok h := hpf
          rw [hpd]

theorem pureHashed_fold_multiGet (fs : String → Option String) (db₀ : List DbRow)
    (dbo nh : Bool) (size : Option Nat) (bucket : List (String × FileInfo))
    (m0 : List DupeGroup) (s' : Option Nat) (h : HashVal) :
    multiGet
        (bucket.foldl
          (fun m e =>
            match pureDigest fs db₀ dbo nh e with
            | .ok h => multiAppend m (size, h) (path_join e.1 e.2.name)
            | .error _ => m) m0) (s', h) =
      multiGet m0 (s', h) ++
        (if s' = size then
          ((bucket.filter (fun e => pureDigest fs db₀ dbo nh e = Except.ok h)).map
            (fun e => path_join e.1 e.2.name))
         else []) := by
  induction bucket generalizing m0 with
  | nil => simp
  | cons e rest ih =>
      simp only [List.foldl_cons]
      cases hd : pureDigest fs db₀ dbo nh e with
      | error u =>
          rw [ih]
          have : (pureDigest fs db₀ dbo nh e = Except.ok h) = False := by
            simp [hd]
          simp [List.filter_cons, this]
      | ok h0 =>
          rw [ih, multiGet_multiAppend]
          by_cases hkey : ((s', h) : Option Nat × HashVal) = (size, h0)
          · have hs : s' = size := congrArg Prod.fst hkey
            have hh : h = h0 := congrArg Prod.snd hkey
            subst hs; subst hh
            simp [List.filter_cons, hd, if_pos rfl]
          · rw [if_neg hkey]
            by_cases hs : s' = size
            · subst hs
              have hne : h ≠ h0 := fun hc => hkey (by rw [hc])
              have : (pureDigest fs db₀ dbo nh e = Except.ok h) = False := by
                simp [hd]
                exact fun hc => hne hc.symm
              simp [List.filter_cons, this]
            · simp [hs]

/-- Group-path characterization of `pureHashed`. -/
theorem pureHashed_multiGet (fs : String → Option String) (db₀ : List DbRow)
    (dbo nh : Bool) (size : Option Nat) (bucket : List (String × FileInfo))
    (s' : Option Nat) (h : HashVal) :
    multiGet (pureHashed fs db₀ dbo nh size bucket) (s', h) =
      (if s' = size then
        ((bucket.filter (fun e => pureDigest fs db₀ dbo nh e = Except.ok h)).map
          (fun e => path_join e.1 e.2.name))
       else []) := by
  have := pureHashed_fold_multiGet fs db₀ dbo nh size bucket [] s' h
  simpa [pureHashed] using this

theorem pureHashed_keysNodup (fs : String → Option String) (db₀ : List DbRow)
    (dbo nh : Bool) (size : Option Nat) (bucket : List (String × FileInfo)) :
    ((pureHashed fs db₀ dbo nh size bucket).map Prod.fst).Nodup := by
  suffices hgen : ∀ m0 : List DupeGroup, (m0.map Prod.fst).Nodup →
      ((bucket.foldl
        (fun m e =>
          match pureDigest fs db₀ dbo nh e with
          | .ok h => multiAppend m (size, h) (path_join e.1 e.2.name)
          | .error _ => m) m0).map Prod.fst).Nodup by
    exact hgen [] (by simp)
  induction bucket with
  | nil => intro m0 h0; simpa using h0
  | cons e rest ih =>
      intro m0 h0
      simp only [List.foldl_cons]
      cases hd : pureDigest fs db₀ dbo nh e with
      | error u => exact ih m0 h0
      | ok h => exact ih _ (keysNodup_multiAppend h0)

/-- The groups one size bucket contributes to the `get_dupes` output:
the `hashed` grouping of the bucket, singletons dropped. -/
def pureBucketOut (fs : String → Option String) (db₀ : List DbRow) (dbo nh : Bool)
    (m : List (Option Nat × List (String × FileInfo))) (s : Option Nat) :
    List DupeGroup :=
  (pureHashed fs db₀ dbo nh s (multiGet m s)).filter (fun kv => 1 < kv.2.length)

theorem dupeBuckets_spec {fs : String → Option String} {db₀ : List DbRow} {dbo : Bool}
    {opt : Options} {m : List (Option Nat × List (String × FileInfo))}
    {order : List (Option Nat)} {st st' : RunState} {out : List (List DupeGroup)}
    (hInv : Inv fs db₀ dbo opt.dupes_no_hash st)
    (hok : dupeBuckets fs opt m order st = .ok (out, st')) :
    (∀ b ∈ out, ∃ s ∈ order, 2 ≤ (multiGet m s).length ∧
        b = pureBucketOut fs db₀ dbo opt.dupes_no_hash m s) ∧
    (∀ s ∈ order, 2 ≤ (multiGet m s).length →
        ∃ b ∈ out, b = pureBucketOut fs db₀ dbo opt.dupes_no_hash m s) := by
  induction order generalizing st out with
  | nil =>
      simp only [dupeBuckets, Except.ok.injEq, Prod.mk.injEq] at hok
      obtain ⟨rfl, rfl⟩ := hok
      exact ⟨by simp, by simp⟩
  | cons s0 rest ih =>
      by_cases hlen : (multiGet m s0).length < 2
      · simp only [dupeBuckets, if_pos hlen] at hok
        obtain ⟨h1, h2⟩ := ih hInv hok
        refine ⟨?_, ?_⟩
        · intro b hb
          obtain ⟨s, hs, hl, hb'⟩ := h1 b hb
          exact ⟨s, List.mem_cons_of_mem _ hs, hl, hb'⟩
        · intro s hs hsl
          rw [List.mem_cons] at hs
          rcases hs with rfl | hs
          · omega
          · exact h2 s hs hsl
      · simp only [dupeBuckets, if_neg hlen] at hok
        cases hh : hashBucket fs opt s0 (multiGet m s0) [] st with
        | error u =>
            simp only [hh, bind, Except.bind] at hok
            exact Except.noConfusion hok
        | ok pr =>
            obtain ⟨g, st1⟩ := pr
            obtain ⟨hInv1, hgeq⟩ := hashBucket_spec hInv hh
            cases hrest : dupeBuckets fs opt m rest st1 with
            | error u =>
                simp only [hh, hrest, bind, Except.bind] at hok
                exact Except.noConfusion hok
            | ok pr2 =>
                obtain ⟨out1, st2⟩ := pr2
                simp only [hh, hrest, bind, Except.bind, Except.ok.injEq,
                  Prod.mk.injEq] at hok
                obtain ⟨rfl, rfl⟩ := hok
                obtain ⟨h1, h2⟩ := ih hInv1 hrest
                have hbeq : g.filter (fun kv => 1 < kv.2.length) =
                    pureBucketOut fs db₀ dbo opt.dupes_no_hash m s0 := by
                  rw [hgeq]; rfl
                refine ⟨?_, ?_⟩
                · intro b hb
                  rw [List.mem_cons] at hb
                  rcases hb with rfl | hb
                  · exact ⟨s0, List.mem_cons_self .., by omega, hbeq⟩
                  · obtain ⟨s, hs, hl, hb'⟩ := h1 b hb
                    exact ⟨s, List.mem_cons_of_mem _ hs, hl, hb'⟩
                · intro s hs hsl
                  rw [List.mem_cons] at hs
                  rcases hs with rfl | hs
                  · exact ⟨_, List.mem_cons_self .., hbeq⟩
                  · obtain ⟨b, hb, hb'⟩ := h2 s hs hsl
                    exact ⟨b, List.mem_cons_of_mem _ hb, hb'⟩

/-- Output characterization of `get_dupes` when started on a fresh run
state: each yielded bucket is the pure grouping of one size with at
least two files, and every such size yields a bucket. -/
theorem get_dupes_spec {fs : String → Option String} {db₀ : List DbRow} {dbo : Bool}
    {opt : Options} {recs : List Record} {out : List (List DupeGroup)}
    (hok : (get_dupes fs opt recs ⟨dbo, db₀, [], 0⟩).map Prod.fst = .ok out) :
    (∀ b ∈ out, ∃ s, 2 ≤ (multiGet (sizeGroups recs) s).length ∧
        b = pureBucketOut fs db₀ dbo opt.dupes_no_hash (sizeGroups recs) s) ∧
    (∀ s, 2 ≤ (multiGet (sizeGroups recs) s).length →
        ∃ b ∈ out, b = pureBucketOut fs db₀ dbo opt.dupes_no_hash (sizeGroups recs) s) := by
  cases hg : get_dupes fs opt recs ⟨dbo, db₀, [], 0⟩ with
  | error u => rw [hg] at hok; cases hok
  | ok pr =>
      obtain ⟨out0, st'⟩ := pr
      rw [hg] at hok
      obtain rfl : out0 = out := Except.ok.inj hok
      simp only [get_dupes] at hg
      obtain ⟨h1, h2⟩ := dupeBuckets_spec (Inv_init fs db₀ dbo opt.dupes_no_hash) hg
      refine ⟨?_, ?_⟩
      · intro b hb
        obtain ⟨s, _, hl, hb'⟩ := h1 b hb
        exact ⟨s, hl, hb'⟩
      · intro s hsl
        have hkey : s ∈ (sizeGroups recs).map Prod.fst := by
          apply mem_key_of_multiGet
          intro hc
          rw [hc] at hsl
          simp at hsl
        have hord : s ∈ isort (sizeOrderLE opt (sizeGroups recs))
            ((sizeGroups recs).map Prod.fst) :=
          (isort_perm _ _).mem_iff.2 hkey
        exact h2 s hord hsl

/-- Membership in the bucket of size `s`. -/
theorem mem_bucket_iff {recs : List Record} {s : Option Nat} {e : String × FileInfo} :
    e ∈ multiGet (sizeGroups recs) s ↔ e ∈ entries recs ∧ e.2.st_size = s := by
  rw [sizeGroups_multiGet, List.mem_filter]
  simp

/-- Core of the grouping direction: same size, same successfully
resolved digest, distinct pairs, unique joined paths — then the two
joined paths appear together in one emitted group. -/
theorem sameGroup_of_size_digest {fs : String → Option String} {db₀ : List DbRow}
    {dbo : Bool} {opt : Options} {recs : List Record} {out : List (List DupeGroup)}
    {e₁ e₂ : String × FileInfo} {h : HashVal}
    (hok : (get_dupes fs opt recs ⟨dbo, db₀, [], 0⟩).map Prod.fst = .ok out)
    (hnd : ((entries recs).map (fun e => path_join e.1 e.2.name)).Nodup)
    (hm₁ : e₁ ∈ entries recs) (hm₂ : e₂ ∈ entries recs) (hne : e₁ ≠ e₂)
    (hsz : e₁.2.st_size = e₂.2.st_size)
    (hd₁ : pureDigest fs db₀ dbo opt.dupes_no_hash e₁ = .ok h)
    (hd₂ : pureDigest fs db₀ dbo opt.dupes_no_hash e₂ = .ok h) :
    inSameGroup out (path_join e₁.1 e₁.2.name) (path_join e₂.1 e₂.2.name) := by
  obtain ⟨-, h2⟩ := get_dupes_spec hok
  have hb₁ : e₁ ∈ multiGet (sizeGroups recs) e₁.2.st_size :=
    mem_bucket_iff.2 ⟨hm₁, rfl⟩
  have hb₂ : e₂ ∈ multiGet (sizeGroups recs) e₁.2.st_size :=
    mem_bucket_iff.2 ⟨hm₂, hsz.symm⟩
  obtain ⟨b, hb, hbeq⟩ :=
    h2 e₁.2.st_size (two_le_length_of_mem_ne hb₁ hb₂ hne)
  set bucket := multiGet (sizeGroups recs) e₁.2.st_size with hbk
  have hpaths : multiGet (pureHashed fs db₀ dbo opt.dupes_no_hash e₁.2.st_size bucket)
      (e₁.2.st_size, h) =
      (bucket.filter (fun e => pureDigest fs db₀ dbo opt.dupes_no_hash e = Except.ok h)).map
        (fun e => path_join e.1 e.2.name) := by
    rw [pureHashed_multiGet, if_pos rfl]
  have hin₁ : path_join e₁.1 e₁.2.name ∈
      (bucket.filter (fun e => pureDigest fs db₀ dbo opt.dupes_no_hash e = Except.ok h)).map
        (fun e => path_join e.1 e.2.name) :=
    List.mem_map.2 ⟨e₁, List.mem_filter.2 ⟨hb₁, by simp [hd₁]⟩, rfl⟩
  have hin₂ : path_join e₂.1 e₂.2.name ∈
      (bucket.filter (fun e => pureDigest fs db₀ dbo opt.dupes_no_hash e = Except.ok h)).map
        (fun e => path_join e.1 e.2.name) :=
    List.mem_map.2 ⟨e₂, List.mem_filter.2 ⟨hb₂, by simp [hd₂]⟩, rfl⟩
  have hjne : path_join e₁.1 e₁.2.name ≠ path_join e₂.1 e₂.2.name := by
    intro hc
    exact hne (List.inj_on_of_nodup_map hnd hm₁ hm₂ hc)
  have hlen2 : 2 ≤ ((bucket.filter
      (fun e => pureDigest fs db₀ dbo opt.dupes_no_hash e = Except.ok h)).map
      (fun e => path_join e.1 e.2.name)).length :=
    two_le_length_of_mem_ne hin₁ hin₂ hjne
  have hgrp : ((e₁.2.st_size, h),
      (bucket.filter (fun e => pureDigest fs db₀ dbo opt.dupes_no_hash e = Except.ok h)).map
        (fun e => path_join e.1 e.2.name)) ∈
      pureHashed fs db₀ dbo opt.dupes_no_hash e₁.2.st_size bucket := by
    rw [← hpaths]
    apply multiGet_mem
    rw [hpaths]
    intro hc
    rw [hc] at hlen2
    simp at hlen2
  refine ⟨b, hb, ?_⟩
  rw [hbeq]
  refine ⟨_, List.mem_filter.2 ⟨hgrp, ?_⟩, hin₁, hin₂⟩
  simp only [decide_eq_true_eq]
  omega

/-- Core of the separation direction: two joined paths in one emitted
group must come from entries of equal size and equal resolved digest. -/
theorem size_digest_of_sameGroup {fs : String → Option String} {db₀ : List DbRow}
    {dbo : Bool} {opt : Options} {recs : List Record} {out : List (List DupeGroup)}
    {e₁ e₂ : String × FileInfo}
    (hok : (get_dupes fs opt recs ⟨dbo, db₀, [], 0⟩).map Prod.fst = .ok out)
    (hnd : ((entries recs).map (fun e => path_join e.1 e.2.name)).Nodup)
    (hm₁ : e₁ ∈ entries recs) (hm₂ : e₂ ∈ entries recs)
    (hg : inSameGroup out (path_join e₁.1 e₁.2.name) (path_join e₂.1 e₂.2.name)) :
    e₁.2.st_size = e₂.2.st_size ∧
      ∃ h, pureDigest fs db₀ dbo opt.dupes_no_hash e₁ = .ok h ∧
        pureDigest fs db₀ dbo opt.dupes_no_hash e₂ = .ok h := by
  obtain ⟨b, hb, gr, hgr, hj₁, hj₂⟩ := hg
  obtain ⟨h1, -⟩ := get_dupes_spec hok
  obtain ⟨s, hsl, rfl⟩ := h1 b hb
  rw [pureBucketOut, List.mem_filter] at hgr
  obtain ⟨hgrm, hgrlen⟩ := hgr
  have hget := multiGet_of_mem
    (pureHashed_keysNodup fs db₀ dbo opt.dupes_no_hash s (multiGet (sizeGroups recs) s))
    (by simpa using hgrm)
  rw [pureHashed_multiGet] at hget
  by_cases hkey : gr.1.1 = s
  case neg =>
      rw [if_neg hkey] at hget
      rw [← hget] at hj₁
      cases hj₁
  case pos =>
      rw [if_pos hkey] at hget
      rw [← hget] at hj₁ hj₂
      obtain ⟨e₁', he₁', hje₁⟩ := List.mem_map.1 hj₁
      obtain ⟨e₂', he₂', hje₂⟩ := List.mem_map.1 hj₂
      rw [List.mem_filter] at he₁' he₂'
      obtain ⟨hb₁', hd₁'⟩ := he₁'
      obtain ⟨hb₂', hd₂'⟩ := he₂'
      rw [mem_bucket_iff] at hb₁' hb₂'
      have heq₁ : e₁' = e₁ := List.inj_on_of_nodup_map hnd hb₁'.1 hm₁ hje₁
      have heq₂ : e₂' = e₂ := List.inj_on_of_nodup_map hnd hb₂'.1 hm₂ hje₂
      subst heq₁; subst heq₂
      simp only [decide_eq_true_eq] at hd₁' hd₂'
      exact ⟨hb₁'.2.trans hb₂'.2.symm, gr.1.2, hd₁', hd₂'⟩

/-- C4 amended: two distinct files of the stream (with globally unique
joined file paths) are put in one emitted duplicate group exactly when
their sizes agree and `find_hash` resolves the same digest for both —
in no-hash mode that digest is the cached one when the DB knows the
file's `(path, size, mtime)`, and the shared "no-hash" sentinel
otherwise, so equal size alone suffices only between uncached files. -/
theorem C4_same_group_iff_same_size_and_digest {fs : String → Option String}
    {db₀ : List DbRow} {dbo : Bool} {opt : Options} {recs : List Record}
    {out : List (List DupeGroup)} {p₁ p₂ : String} {f₁ f₂ : FileInfo}
    (hok : (get_dupes fs opt recs ⟨dbo, db₀, [], 0⟩).map Prod.fst = .ok out)
    (hnd : ((entries recs).map (fun e => path_join e.1 e.2.name)).Nodup)
    (hm₁ : (p₁, f₁) ∈ entries recs) (hm₂ : (p₂, f₂) ∈ entries recs)
    (hne : (p₁, f₁) ≠ (p₂, f₂)) :
    inSameGroup out (path_join p₁ f₁.name) (path_join p₂ f₂.name) ↔
      (f₁.st_size = f₂.st_size ∧
        ∃ h, pureDigest fs db₀ dbo opt.dupes_no_hash (p₁, f₁) = .ok h ∧
          pureDigest fs db₀ dbo opt.dupes_no_hash (p₂, f₂) = .ok h) := by
  constructor
  · intro hg
    exact size_digest_of_sameGroup hok hnd hm₁ hm₂ hg
  · rintro ⟨hsz, h, hd₁, hd₂⟩
    exact sameGroup_of_size_digest hok hnd hm₁ hm₂ hne hsz hd₁ hd₂

/-- Witness for C4 amended: two same-size files with equal content are
grouped, and the iff's right side holds with their shared digest. -/
theorem C4_same_group_iff_same_size_and_digest_witness :
    (inSameGroup [[((some 5, .sha1File "C"), ["a/f", "b/f"])]]
        (path_join "a" f5.name) (path_join "b" f5.name) ↔
      (f5.st_size = f5.st_size ∧
        ∃ h, pureDigest (fsTable [("a/f", "C"), ("b/f", "C")]) [] false false
            ("a", f5) = .ok h ∧
          pureDigest (fsTable [("a/f", "C"), ("b/f", "C")]) [] false false
            ("b", f5) = .ok h)) :=
  @C4_same_group_iff_same_size_and_digest (fsTable [("a/f", "C"), ("b/f", "C")]) []
    false optPlain [⟨"a", [f5]⟩, ⟨"b", [f5]⟩]
    [[((some 5, .sha1File "C"), ["a/f", "b/f"])]] "a" "b" f5 f5
    rfl (by decide) (by decide) (by decide) (by decide)

/-- C5 amended: two distinct same-size files that both resolve to the
"NOFILEACCESS" sentinel digest are emitted together as one confirmed
duplicate set — `get_dupes` gives the sentinel no special treatment. -/
theorem C5_sentinel_grouped_like_any_digest {fs : String → Option String}
    {db₀ : List DbRow} {dbo : Bool} {opt : Options} {recs : List Record}
    {out : List (List DupeGroup)} {p₁ p₂ : String} {f₁ f₂ : FileInfo}
    (hok : (get_dupes fs opt recs ⟨dbo, db₀, [], 0⟩).map Prod.fst = .ok out)
    (hnd : ((entries recs).map (fun e => path_join e.1 e.2.name)).Nodup)
    (hm₁ : (p₁, f₁) ∈ entries recs) (hm₂ : (p₂, f₂) ∈ entries recs)
    (hne : (p₁, f₁) ≠ (p₂, f₂)) (hsz : f₁.st_size = f₂.st_size)
    (hd₁ : pureDigest fs db₀ dbo opt.dupes_no_hash (p₁, f₁) = .ok .noAccess)
    (hd₂ : pureDigest fs db₀ dbo opt.dupes_no_hash (p₂, f₂) = .ok .noAccess) :
    inSameGroup out (path_join p₁ f₁.name) (path_join p₂ f₂.name) :=
  sameGroup_of_size_digest hok hnd hm₁ hm₂ hne hsz hd₁ hd₂

/-- Witness for C5 amended: the two sentinel-cached files of the
counterexample scenario are indeed emitted together. -/
theorem C5_sentinel_grouped_like_any_digest_witness :
    inSameGroup [[((some 5, .noAccess), ["a/f", "b/f"])]]
      (path_join "a" f5.name) (path_join "b" f5.name) :=
  @C5_sentinel_grouped_like_any_digest (fsTable [])
    [⟨"a/f", some 5, some 7, .noAccess⟩, ⟨"b/f", some 5, some 7, .noAccess⟩]
    true optPlain [⟨"a", [f5]⟩, ⟨"b", [f5]⟩]
    [[((some 5, .noAccess), ["a/f", "b/f"])]] "a" "b" f5 f5
    rfl (by decide) (by decide) (by decide) (by decide) rfl rfl rfl

/-! ## C9 — the `--show-n` stopping rule of `dupes` -/

theorem dupesEmit_spec {sn : Nat} (hpos : 0 < sn) :
    ∀ (bs : List (List DupeGroup)) (acc : Nat), acc < sn →
      ∃ k, k ≤ bs.length ∧
        dupesEmit sn bs acc = (bs.take k).flatten ∧
        (∀ j, j < k → acc + ((bs.take j).map List.length).sum < sn) ∧
        (k = bs.length ∨ sn ≤ acc + ((bs.take k).map List.length).sum) := by
  intro bs
  induction bs with
  | nil =>
      intro acc hacc
      exact ⟨0, Nat.le_refl _, rfl, by omega, .inl rfl⟩
  | cons b rest ih =>
      intro acc hacc
      by_cases hstop : sn ≤ acc + b.length
      · refine ⟨1, by simp, ?_, ?_, ?_⟩
        · have hcond : (decide (sn ≠ 0) && decide (sn ≤ acc + b.length)) = true := by
            simp [hstop]
            omega
          simp only [dupesEmit, ge_iff_le, hcond, if_pos]
          simp
        · intro j hj
          interval_cases j
          simpa using hacc
        · right
          simpa using hstop
      · have hcond : (decide (sn ≠ 0) && decide (sn ≤ acc + b.length)) = false := by
          simp [hstop]
        obtain ⟨k, hk, hemit, hlt, hlast⟩ := ih (acc + b.length) (by omega)
        refine ⟨k + 1, by simpa using hk, ?_, ?_, ?_⟩
        · simp only [dupesEmit, ge_iff_le, hcond, Bool.false_eq_true, if_false,
            List.take_succ_cons, List.flatten_cons, hemit]
        · intro j hj
          cases j with
          | zero => simpa using hacc
          | succ j' =>
              have := hlt j' (by omega)
              simp only [List.take_succ_cons, List.map_cons, List.sum_cons]
              omega
        · rcases hlast with rfl | hge
          · left; simp
          · right
            simp only [List.take_succ_cons, List.map_cons, List.sum_cons]
            omega

/-- C9: with a positive `--show-n`, the `dupes` mode emits exactly the
groups of a whole-bucket prefix of the `get_dupes` stream: a started
size bucket is never cut short (so no duplicate set is truncated and the
number of emitted sets may exceed the limit), every earlier bucket
boundary was still below the limit, and emission stops only once the
limit is reached or the stream ends. -/
theorem C9_show_n_stops_at_bucket_boundary {fs : String → Option String}
    {opt : Options} {recs : List Record} {st : RunState}
    {buckets : List (List DupeGroup)}
    (hpos : 0 < opt.show_n)
    (hok : (get_dupes fs opt recs st).map Prod.fst = .ok buckets) :
    ∃ k, k ≤ buckets.length ∧
      dupes fs opt recs st = .ok ((buckets.take k).flatten) ∧
      (∀ j, j < k → ((buckets.take j).map List.length).sum < opt.show_n) ∧
      (k = buckets.length ∨ opt.show_n ≤ ((buckets.take k).map List.length).sum) := by
  cases hg : get_dupes fs opt recs st with
  | error u => rw [hg] at hok; cases hok
  | ok pr =>
      obtain ⟨out0, st'⟩ := pr
      rw [hg] at hok
      obtain rfl : out0 = buckets := Except.ok.inj hok
      obtain ⟨k, hk, hemit, hlt, hlast⟩ := dupesEmit_spec hpos out0 0 hpos
      refine ⟨k, hk, ?_, ?_, ?_⟩
      · simp only [dupes, hg, bind, Except.bind, hemit]
      · intro j hj
        have := hlt j hj
        omega
      · rcases hlast with rfl | hge
        · exact .inl rfl
        · right; omega

/-- Witness input for C9: one size bucket holding two duplicate sets. -/
def recsC9 : List Record :=
  [⟨"a", [f5]⟩, ⟨"b", [f5]⟩, ⟨"c", [f5]⟩, ⟨"d", [f5]⟩]

/-- Contents for `recsC9`: two pairs of equal-content files. -/
def fsC9 : String → Option String :=
  fsTable [("a/f", "X"), ("b/f", "X"), ("c/f", "Y"), ("d/f", "Y")]

/-- Witness for C9: with `--show-n 1` the single started bucket emits
both of its duplicate sets (overshooting the limit of one). -/
theorem C9_show_n_stops_at_bucket_boundary_witness :
    ∃ k, k ≤ ([[((some 5, HashVal.sha1File "X"), ["a/f", "b/f"]),
                 ((some 5, HashVal.sha1File "Y"), ["c/f", "d/f"])]] :
               List (List DupeGroup)).length ∧
      dupes fsC9 ⟨false, false, 1⟩ recsC9 runNoDb =
        .ok (([[((some 5, HashVal.sha1File "X"), ["a/f", "b/f"]),
                ((some 5, HashVal.sha1File "Y"), ["c/f", "d/f"])]].take k).flatten) ∧
      (∀ j, j < k →
        (([[((some 5, HashVal.sha1File "X"), ["a/f", "b/f"]),
            ((some 5, HashVal.sha1File "Y"), ["c/f", "d/f"])]].take j).map
          List.length).sum < 1) ∧
      (k = ([[((some 5, HashVal.sha1File "X"), ["a/f", "b/f"]),
              ((some 5, HashVal.sha1File "Y"), ["c/f", "d/f"])]] :
             List (List DupeGroup)).length ∨
        1 ≤ (([[((some 5, HashVal.sha1File "X"), ["a/f", "b/f"]),
                ((some 5, HashVal.sha1File "Y"), ["c/f", "d/f"])]].take k).map
              List.length).sum) :=
  C9_show_n_stops_at_bucket_boundary (by decide) rfl

/-! ## C3 amended — file-order canonicalization of the tree fingerprints

The file lists of each node are sorted before hashing, so permuting a
record's `files` list never changes a fingerprint.  That rests on
`fileLE` being a linear order (total, transitive, antisymmetric), which
makes the insertion sort canonical on permutation classes. -/

theorem charsLT_irrefl : ∀ s, charsLT s s = false := by
  intro s
  induction s with
  | nil => rfl
  | cons a as ih => simp [charsLT, ih]

theorem charsLT_asymm : ∀ {s t}, charsLT s t = true → charsLT t s = false := by
  intro s
  induction s with
  | nil =>
      intro t h
      cases t with
      | nil => simpa [charsLT] using h
      | cons b bs => rfl
  | cons a as ih =>
      intro t h
      cases t with
      | nil => simp [charsLT] at h
      | cons b bs =>
          simp only [charsLT, Bool.or_eq_true, Bool.and_eq_true,
            decide_eq_true_eq] at h
          simp only [charsLT]
          rcases h with h | ⟨he, hr⟩
          · have h1 : ¬ b.toNat < a.toNat := by omega
            have h2 : ¬ b.toNat = a.toNat := by omega
            simp [h1, h2]
          · have h1 : ¬ b.toNat < a.toNat := by omega
            simp [h1, ih hr]

theorem charsLT_trichotomy : ∀ s t, charsLT s t = true ∨ s = t ∨ charsLT t s = true := by
  intro s
  induction s with
  | nil =>
      intro t
      cases t with
      | nil => exact .inr (.inl rfl)
      | cons b bs => exact .inl rfl
  | cons a as ih =>
      intro t
      cases t with
      | nil => exact .inr (.inr rfl)
      | cons b bs =>
          rcases Nat.lt_trichotomy a.toNat b.toNat with h | h | h
          · exact .inl (by simp [charsLT, h])
          · have hab : a = b := Char.ext (UInt32.ext h)
            subst hab
            rcases ih bs with h2 | h2 | h2
            · exact .inl (by simp [charsLT, h2])
            · exact .inr (.inl (by rw [h2]))
            · exact .inr (.inr (by simp [charsLT, h2]))
          · exact .inr (.inr (by simp [charsLT, h]))

theorem charsLT_trans : ∀ {s t u}, charsLT s t = true → charsLT t u = true →
    charsLT s u = true := by
  intro s
  induction s with
  | nil =>
      intro t u h1 h2
      cases t with
      | nil => simp [charsLT] at h1
      | cons b bs =>
          cases u with
          | nil => simp [charsLT] at h2
          | cons c cs => rfl
  | cons a as ih =>
      intro t u h1 h2
      cases t with
      | nil => simp [charsLT] at h1
      | cons b bs =>
          cases u with
          | nil => simp [charsLT] at h2
          | cons c cs =>
              simp only [charsLT, Bool.or_eq_true, Bool.and_eq_true,
                decide_eq_true_eq] at h1 h2 ⊢
              rcases h1 with h1 | ⟨he1, hr1⟩ <;> rcases h2 with h2 | ⟨he2, hr2⟩
              · left; omega
              · left; omega
              · left; omega
              · right; exact ⟨by omega, ih hr1 hr2⟩

theorem ltON_asymm : ∀ {a b : Option Nat}, ltON a b = true → ltON b a = false := by
  intro a b h
  cases a <;> cases b <;> simp_all [ltON] <;> omega

theorem ltON_trichotomy : ∀ a b : Option Nat, ltON a b = true ∨ a = b ∨ ltON b a = true := by
  intro a b
  cases a <;> cases b <;> simp [ltON] <;> omega

theorem ltON_trans : ∀ {a b c : Option Nat}, ltON a b = true → ltON b c = true →
    ltON a c = true := by
  intro a b c h1 h2
  cases a <;> cases b <;> cases c <;> simp_all [ltON] <;> omega

theorem ltOI_asymm : ∀ {a b : Option Int}, ltOI a b = true → ltOI b a = false := by
  intro a b h
  cases a <;> cases b <;> simp_all [ltOI] <;> omega

theorem ltOI_trichotomy : ∀ a b : Option Int, ltOI a b = true ∨ a = b ∨ ltOI b a = true := by
  intro a b
  cases a <;> cases b <;> simp [ltOI] <;> omega

theorem ltOI_trans : ∀ {a b c : Option Int}, ltOI a b = true → ltOI b c = true →
    ltOI a c = true := by
  intro a b c h1 h2
  cases a <;> cases b <;> cases c <;> simp_all [ltOI] <;> omega

theorem ltON_irrefl (a : Option Nat) : ltON a a = false := by
  cases a <;> simp [ltON]

theorem ltOI_irrefl (a : Option Int) : ltOI a a = false := by
  cases a <;> simp [ltOI]

theorem toList_injective {s t : String} (h : s.toList = t.toList) : s = t := by
  cases s; cases t
  exact congrArg String.mk h

/-- Propositional form of the tuple comparison. -/
theorem fileLE_iff {a b : FileInfo} :
    fileLE a b = true ↔
      (charsLT a.name.toList b.name.toList = true ∨
        (a.name = b.name ∧
          (ltON a.st_size b.st_size = true ∨
            (a.st_size = b.st_size ∧
              (ltOI a.st_atime b.st_atime = true ∨
                (a.st_atime = b.st_atime ∧
                  (ltOI a.st_mtime b.st_mtime = true ∨ a.st_mtime = b.st_mtime))))))) := by
  simp [fileLE, Bool.or_eq_true, Bool.and_eq_true, decide_eq_true_eq]

theorem fileLE_total (a b : FileInfo) : fileLE a b = true ∨ fileLE b a = true := by
  rw [fileLE_iff, fileLE_iff]
  rcases charsLT_trichotomy a.name.toList b.name.toList with h | h | h
  · exact .inl (.inl h)
  · have hn : a.name = b.name := toList_injective h
    rcases ltON_trichotomy a.st_size b.st_size with h2 | h2 | h2
    · exact .inl (.inr ⟨hn, .inl h2⟩)
    · rcases ltOI_trichotomy a.st_atime b.st_atime with h3 | h3 | h3
      · exact .inl (.inr ⟨hn, .inr ⟨h2, .inl h3⟩⟩)
      · rcases ltOI_trichotomy a.st_mtime b.st_mtime with h4 | h4 | h4
        · exact .inl (.inr ⟨hn, .inr ⟨h2, .inr ⟨h3, .inl h4⟩⟩⟩)
        · exact .inl (.inr ⟨hn, .inr ⟨h2, .inr ⟨h3, .inr h4⟩⟩⟩)
        · exact .inr (.inr ⟨hn.symm, .inr ⟨h2.symm, .inr ⟨h3.symm, .inl h4⟩⟩⟩)
      · exact .inr (.inr ⟨hn.symm, .inr ⟨h2.symm, .inl h3⟩⟩)
    · exact .inr (.inr ⟨hn.symm, .inl h2⟩)
  · exact .inr (.inl h)

theorem fileLE_antisymm {a b : FileInfo} (h1 : fileLE a b = true)
    (h2 : fileLE b a = true) : a = b := by
  rw [fileLE_iff] at h1 h2
  obtain ⟨na, sa, aa, ma⟩ := a
  obtain ⟨nb, sb, ab, mb⟩ := b
  simp only at h1 h2
  rcases h1 with h1 | ⟨hn1, h1⟩
  · rcases h2 with h2 | ⟨hn2, h2⟩
    · rw [charsLT_asymm h1] at h2; cases h2
    · rw [hn2] at h1; rw [charsLT_irrefl] at h1; cases h1
  · rcases h2 with h2 | ⟨hn2, h2⟩
    · rw [hn1] at h2; rw [charsLT_irrefl] at h2; cases h2
    · subst hn1
      rcases h1 with h1 | ⟨hs1, h1⟩
      · rcases h2 with h2 | ⟨hs2, h2⟩
        · rw [ltON_asymm h1] at h2; cases h2
        · rw [hs2, ltON_irrefl] at h1; cases h1
      · rcases h2 with h2 | ⟨hs2, h2⟩
        · rw [hs1, ltON_irrefl] at h2; cases h2
        · subst hs1
          rcases h1 with h1 | ⟨ha1, h1⟩
          · rcases h2 with h2 | ⟨ha2, h2⟩
            · rw [ltOI_asymm h1] at h2; cases h2
            · rw [ha2, ltOI_irrefl] at h1; cases h1
          · rcases h2 with h2 | ⟨ha2, h2⟩
            · rw [ha1, ltOI_irrefl] at h2; cases h2
            · subst ha1
              rcases h1 with h1 | h1
              · rcases h2 with h2 | h2
                · rw [ltOI_asymm h1] at h2; cases h2
                · rw [h2, ltOI_irrefl] at h1; cases h1
              · rw [h1]

theorem fileLE_trans {a b c : FileInfo} (h1 : fileLE a b = true)
    (h2 : fileLE b c = true) : fileLE a c = true := by
  rw [fileLE_iff] at h1 h2 ⊢
  rcases h1 with h1 | ⟨hn1, h1⟩
  · rcases h2 with h2 | ⟨hn2, h2⟩
    · exact .inl (charsLT_trans h1 h2)
    · exact .inl (hn2 ▸ h1)
  · rcases h2 with h2 | ⟨hn2, h2⟩
    · exact .inl (hn1 ▸ h2)
    · refine .inr ⟨hn1.trans hn2, ?_⟩
      rcases h1 with h1 | ⟨hs1, h1⟩
      · rcases h2 with h2 | ⟨hs2, h2⟩
        · exact .inl (ltON_trans h1 h2)
        · exact .inl (hs2 ▸ h1)
      · rcases h2 with h2 | ⟨hs2, h2⟩
        · exact .inl (hs1 ▸ h2)
        · refine .inr ⟨hs1.trans hs2, ?_⟩
          rcases h1 with h1 | ⟨ha1, h1⟩
          · rcases h2 with h2 | ⟨ha2, h2⟩
            · exact .inl (ltOI_trans h1 h2)
            · exact .inl (ha2 ▸ h1)
          · rcases h2 with h2 | ⟨ha2, h2⟩
            · exact .inl (ha1 ▸ h2)
            · refine .inr ⟨ha1.trans ha2, ?_⟩
              rcases h1 with h1 | h1
              · rcases h2 with h2 | h2
                · exact .inl (ltOI_trans h1 h2)
                · exact .inl (h2 ▸ h1)
              · rcases h2 with h2 | h2
                · exact .inl (h1 ▸ h2)
                · exact .inr (h1.trans h2)

theorem mem_insertLE {α : Type} {le : α → α → Bool} {x z : α} {l : List α}
    (h : z ∈ insertLE le x l) : z = x ∨ z ∈ l := by
  have h2 := (insertLE_perm le x l).mem_iff.1 h
  rw [List.mem_cons] at h2
  exact h2

theorem insertLE_sorted {x : FileInfo} {l : List FileInfo}
    (hl : List.Pairwise (fun a b => fileLE a b = true) l) :
    List.Pairwise (fun a b => fileLE a b = true) (insertLE fileLE x l) := by
  induction l with
  | nil => simp [insertLE]
  | cons y ys ih =>
      obtain ⟨hy, hys⟩ := List.pairwise_cons.1 hl
      by_cases hxy : fileLE x y = true
      · simp only [insertLE, hxy, if_pos]
        refine List.pairwise_cons.2 ⟨?_, hl⟩
        intro z hz
        rw [List.mem_cons] at hz
        rcases hz with rfl | hz
        · exact hxy
        · exact fileLE_trans hxy (hy z hz)
      · simp only [insertLE, hxy, Bool.false_eq_true, if_false]
        refine List.pairwise_cons.2 ⟨?_, ih hys⟩
        intro z hz
        rcases mem_insertLE hz with rfl | hz
        · rcases fileLE_total z y with h | h
          · exact absurd h hxy
          · exact h
        · exact hy z hz

theorem isort_sorted (l : List FileInfo) :
    List.Pairwise (fun a b => fileLE a b = true) (isort fileLE l) := by
  induction l with
  | nil => simp [isort]
  | cons x xs ih => exact insertLE_sorted ih

/-- The insertion sort of `recur` is canonical on permutation classes:
any two permutations of a file list sort to the same list. -/
theorem isort_fileLE_perm_eq {l₁ l₂ : List FileInfo} (h : l₁.Perm l₂) :
    isort fileLE l₁ = isort fileLE l₂ := by
  letI : IsAntisymm FileInfo (fun a b => fileLE a b = true) :=
    ⟨fun _ _ h1 h2 => fileLE_antisymm h1 h2⟩
  exact List.eq_of_perm_of_sorted
    ((isort_perm fileLE l₁).trans (h.trans (isort_perm fileLE l₂).symm))
    (isort_sorted l₁) (isort_sorted l₂)

/-- Two record streams with the same directory records in the same
order, where each record's file list may be permuted. -/
def RecordsFilePerm (rs₁ rs₂ : List Record) : Prop :=
  List.Forall₂ (fun r₁ r₂ => r₁.path = r₂.path ∧ r₁.files.Perm r₂.files) rs₁ rs₂

/-- Two hierarchical dicts with identical shape and sibling order whose
per-node file lists are permutations of each other. -/
inductive TreeFilePerm : Tree → Tree → Prop where
  | nilF : TreeFilePerm .nilF .nilF
  | consF {seg : String} {c c' r r' : Tree} :
      TreeFilePerm c c' → TreeFilePerm r r' →
      TreeFilePerm (.consF seg c r) (.consF seg c' r')
  | node {files files' : List FileInfo} {ch ch' : Tree} :
      files.Perm files' → TreeFilePerm ch ch' →
      TreeFilePerm (.node files ch) (.node files' ch')

theorem buildPath_filePerm {files files' : List FileInfo}
    (h : files.Perm files') :
    ∀ segs, TreeFilePerm (buildPath files segs) (buildPath files' segs) := by
  intro segs
  induction segs with
  | nil => exact .node h .nilF
  | cons seg rest ih => exact .node (List.Perm.refl []) (.consF ih .nilF)

theorem insTree_filePerm {files files' : List FileInfo}
    (hf : files.Perm files') :
    ∀ {t t'}, TreeFilePerm t t' → ∀ segs,
      TreeFilePerm (insTree files segs t) (insTree files' segs t') := by
  intro t t' ht
  induction ht with
  | nilF =>
      intro segs
      cases segs with
      | nil => exact .nilF
      | cons seg rest => exact .consF (buildPath_filePerm hf rest) .nilF
  | consF hc hr ihc ihr =>
      rename_i seg c c' r r'
      intro segs
      cases segs with
      | nil => exact .consF hc hr
      | cons s0 rest =>
          by_cases hk : seg = s0
          · simp only [insTree, if_pos hk]
            exact .consF (ihc rest) hr
          · simp only [insTree, if_neg hk]
            exact .consF hc (ihr (s0 :: rest))
  | node hfs hch ihch =>
      rename_i fls fls' ch ch'
      intro segs
      cases segs with
      | nil => exact .node hf hch
      | cons s0 rest => exact .node hfs (ihch (s0 :: rest))

theorem get_hier_db_filePerm {rs₁ rs₂ : List Record} (h : RecordsFilePerm rs₁ rs₂) :
    TreeFilePerm (get_hier_db rs₁) (get_hier_db rs₂) := by
  suffices hgen : ∀ {t₁ t₂}, TreeFilePerm t₁ t₂ →
      TreeFilePerm
        (rs₁.foldl (fun db r => insTree r.files (splitPath r.path) db) t₁)
        (rs₂.foldl (fun db r => insTree r.files (splitPath r.path) db) t₂) by
    exact hgen (.node (List.Perm.refl []) .nilF)
  induction h with
  | nil => intro t₁ t₂ ht; exact ht
  | cons hr hrest ih =>
      rename_i r₁ r₂ l₁ l₂
      intro t₁ t₂ ht
      simp only [List.foldl_cons]
      rw [← hr.1]
      exact ih (insTree_filePerm hr.2 ht _)

/-- Observable part of a `recurGo` result: the returned value and the
run state plus fingerprint index (`path_node` is its own tree and is
intentionally dropped: nothing reads it during the first pass). -/
def dsProj (r : Except Unit ((List HashVal × Nat × Nat) × DState)) :
    Except Unit ((List HashVal × Nat × Nat) ×
      RunState × List ((Nat × HashVal) × List String)) :=
  r.map (fun p => (p.1, p.2.run, p.2.hashes))

theorem dsProj_ok {v : List HashVal × Nat × Nat} {st : DState}
    {r : Except Unit ((List HashVal × Nat × Nat) × DState)}
    (h : dsProj r = .ok (v, st.run, st.hashes)) :
    ∃ st', r = .ok (v, st') ∧ st'.run = st.run ∧ st'.hashes = st.hashes := by
  cases r with
  | error e => cases h
  | ok p =>
      obtain ⟨v', st''⟩ := p
      simp only [dsProj, Except.map, Except.ok.injEq, Prod.mk.injEq] at h
      obtain ⟨rfl, h2, h3⟩ := h
      exact ⟨st'', rfl, h2, h3⟩

theorem recurGo_filePerm {fs : String → Option String} {opt : Options} :
    ∀ {t₁ t₂}, TreeFilePerm t₁ t₂ → ∀ path (st₁ st₂ : DState),
      st₁.run = st₂.run → st₁.hashes = st₂.hashes →
      dsProj (recurGo fs opt t₁ path st₁) = dsProj (recurGo fs opt t₂ path st₂) := by
  intro t₁ t₂ ht
  induction ht with
  | nilF =>
      intro path st₁ st₂ hr hh
      simp [recurGo, dsProj, Except.map, hr, hh]
  | consF hc hrr ihc ihr =>
      rename_i seg c c' r r'
      intro path st₁ st₂ hr hh
      have h1 := ihc (path_join path seg) st₁ st₂ hr hh
      cases hA : recurGo fs opt c (path_join path seg) st₁ with
      | error e =>
          rw [hA] at h1
          cases hB : recurGo fs opt c' (path_join path seg) st₂ with
          | error e' =>
              cases e; cases e'
              simp [recurGo, hA, hB, bind, Except.bind, dsProj, Except.map]
          | ok p => rw [hB] at h1; cases h1
      | ok p =>
          obtain ⟨vA, stA⟩ := p
          rw [hA] at h1
          obtain ⟨stB, hB, hrB, hhB⟩ := dsProj_ok h1.symm
          have h2 := ihr path stA stB hrB.symm hhB.symm
          cases hC : recurGo fs opt r path stA with
          | error e =>
              rw [hC] at h2
              cases hD : recurGo fs opt r' path stB with
              | error e' =>
                  cases e; cases e'
                  simp [recurGo, hA, hB, hC, hD, bind, Except.bind, dsProj, Except.map]
              | ok p2 => rw [hD] at h2; cases h2
          | ok p2 =>
              obtain ⟨vC, stC⟩ := p2
              rw [hC] at h2
              obtain ⟨stD, hD, hrD, hhD⟩ := dsProj_ok h2.symm
              dsimp only at hrD hhD
              simp only [recurGo, hA, hB, hC, hD, bind, Except.bind]
              obtain ⟨hs1, cc1, cb1⟩ := vA
              obtain ⟨hs2, cc2, cb2⟩ := vC
              by_cases hcc : cc1 ≠ 0
              · simp [hcc, dsProj, Except.map, hrD, hhD]
              · simp [hcc, dsProj, Except.map, hrD, hhD]
  | node hfs hch ihch =>
      rename_i fls fls' ch ch'
      intro path st₁ st₂ hr hh
      have h1 := ihch path
        { st₁ with pathNode := assocSet st₁.pathNode path (.node fls ch) }
        { st₂ with pathNode := assocSet st₂.pathNode path (.node fls' ch') } hr hh
      cases hA : recurGo fs opt ch path
          { st₁ with pathNode := assocSet st₁.pathNode path (.node fls ch) } with
      | error e =>
          rw [hA] at h1
          cases hB : recurGo fs opt ch' path
              { st₂ with pathNode := assocSet st₂.pathNode path (.node fls' ch') } with
          | error e' =>
              cases e; cases e'
              simp [recurGo, hA, hB, bind, Except.bind, dsProj, Except.map]
          | ok p => rw [hB] at h1; cases h1
      | ok p =>
          obtain ⟨vA, stA⟩ := p
          rw [hA] at h1
          obtain ⟨stB, hB, hrB, hhB⟩ := dsProj_ok h1.symm
          obtain ⟨hs1, cc1, cb1⟩ := vA
          dsimp only at hrB hhB
          have hsort : isort fileLE fls = isort fileLE fls' := isort_fileLE_perm_eq hfs
          simp only [recurGo, hA, hB, bind, Except.bind, hsort, hrB, hhB]
          cases hF : recurFiles fs opt (isort fileLE fls') path hs1 cc1 cb1 stA.run with
          | error e => simp [hF, dsProj, Except.map]
          | ok pf =>
              obtain ⟨⟨hsF, ccF, cbF⟩, runF⟩ := pf
              simp [hF, dsProj, Except.map]

/-- C3 amended: the tree aggregation (`get_hier_db` followed by the
first `recur` pass) gives every directory node the same fingerprint for
any two record streams that carry the same directory records in the same
order with each record's file list arbitrarily permuted — the file order
is canonicalized by sorting.  In particular (taking the trivial
permutation) re-running aggregation on an unchanged stream reproduces
all fingerprints.  Sibling order is not canonicalized: by the
counterexample, streams differing in record order may disagree. -/
theorem C3_aggregation_invariant_under_file_order {fs : String → Option String}
    {opt : Options} {rs₁ rs₂ : List Record} {run : RunState}
    (hp : RecordsFilePerm rs₁ rs₂) :
    (recur fs opt (get_hier_db rs₁) "/" ⟨run, [], []⟩).map
        (fun p => (p.1, p.2.run, p.2.hashes)) =
      (recur fs opt (get_hier_db rs₂) "/" ⟨run, [], []⟩).map
        (fun p => (p.1, p.2.run, p.2.hashes)) := by
  have h := @recurGo_filePerm fs opt _ _ (get_hier_db_filePerm hp) "/"
    ⟨run, [], []⟩ ⟨run, [], []⟩ rfl rfl
  cases hA : recurGo fs opt (get_hier_db rs₁) "/" ⟨run, [], []⟩ with
  | error e =>
      rw [hA] at h
      cases hB : recurGo fs opt (get_hier_db rs₂) "/" ⟨run, [], []⟩ with
      | error e' =>
          cases e; cases e'
          simp [recur, hA, hB]
      | ok p => rw [hB] at h; cases h
  | ok p =>
      obtain ⟨vA, stA⟩ := p
      rw [hA] at h
      obtain ⟨stB, hB, hrB, hhB⟩ := dsProj_ok h.symm
      obtain ⟨hs1, cc1, cb1⟩ := vA
      simp [recur, hA, hB, Except.map, hrB, hhB]

/-- Witness for C3 amended: one record with its two files swapped. -/
theorem C3_aggregation_invariant_under_file_order_witness :
    (recur fsOrd optPlain
        (get_hier_db [⟨"/a", [mkFi "x" 1, mkFi "y" 2]⟩]) "/" dstate0).map
        (fun p => (p.1, p.2.run, p.2.hashes)) =
      (recur fsOrd optPlain
        (get_hier_db [⟨"/a", [mkFi "y" 2, mkFi "x" 1]⟩]) "/" dstate0).map
        (fun p => (p.1, p.2.run, p.2.hashes)) :=
  C3_aggregation_invariant_under_file_order
    (List.Forall₂.cons ⟨rfl, List.Perm.swap (mkFi "y" 2) (mkFi "x" 1) []⟩
      List.Forall₂.nil)

/-! ## C10 — nested-duplicate suppression by raw string prefix -/

theorem seenSkip_eq_false_iff {seen : List String} {x : String} :
    seenSkip seen x = false ↔ ∀ p ∈ seen, strStart p x = false := by
  simp [seenSkip, List.any_eq_false]

theorem seenSkip_mono {seen seen₂ : List String} {x : String}
    (hsub : ∀ p ∈ seen, p ∈ seen₂) (h : seenSkip seen₂ x = false) :
    seenSkip seen x = false :=
  seenSkip_eq_false_iff.2 fun p hp => (seenSkip_eq_false_iff.1 h) p (hsub p hp)

/-- Everything `printGroups` does to its output and to `seen`: `seen`
only grows, printed groups take their path lists from the grouping, and
every printed path ends up in the final `seen`. -/
theorem printGroups_spec (size : Nat) :
    ∀ (sh : List (HashVal × List String)) (seen : List String),
      (∀ x ∈ seen, x ∈ (printGroups size sh seen).2) ∧
      (∀ pr ∈ (printGroups size sh seen).1, ∃ gh ∈ sh, pr.2 = gh.2) ∧
      (∀ pr ∈ (printGroups size sh seen).1, ∀ x ∈ pr.2,
        x ∈ (printGroups size sh seen).2) := by
  intro sh
  induction sh with
  | nil =>
      intro seen
      exact ⟨fun x hx => hx, by simp [printGroups], by simp [printGroups]⟩
  | cons gh0 rest ih =>
      intro seen
      obtain ⟨h0, paths⟩ := gh0
      by_cases hlen : paths.length < 2
      · simp only [printGroups, if_pos hlen]
        obtain ⟨c1, c2, c3⟩ := ih seen
        refine ⟨c1, ?_, c3⟩
        intro pr hpr
        obtain ⟨gh, hgh, he⟩ := c2 pr hpr
        exact ⟨gh, List.mem_cons_of_mem _ hgh, he⟩
      · obtain ⟨c1, c2, c3⟩ := ih (seen ++ paths)
        simp only [printGroups, if_neg hlen]
        cases hpg : printGroups size rest (seen ++ paths) with
        | mk out seen' =>
            rw [hpg] at c1 c2 c3
            simp only at c1 c2 c3 ⊢
            refine ⟨?_, ?_, ?_⟩
            · intro x hx
              exact c1 x (List.mem_append.2 (.inl hx))
            · intro pr hpr
              rw [List.mem_cons] at hpr
              rcases hpr with rfl | hpr
              · exact ⟨(h0, paths), List.mem_cons_self .., rfl⟩
              · obtain ⟨gh, hgh, he⟩ := c2 pr hpr
                exact ⟨gh, List.mem_cons_of_mem _ hgh, he⟩
            · intro pr hpr x hx
              rw [List.mem_cons] at hpr
              rcases hpr with rfl | hpr
              · exact c1 x (List.mem_append.2 (.inr hx))
              · exact c3 pr hpr x hx

theorem mem_multiAppend_paths {κ ν : Type} [DecidableEq κ] :
    ∀ (m : List (κ × List ν)) (k : κ) (v : ν) (g : κ × List ν),
      g ∈ multiAppend m k v → ∀ x ∈ g.2, (∃ g0 ∈ m, x ∈ g0.2) ∨ x = v := by
  intro m
  induction m with
  | nil =>
      intro k v g hg x hx
      simp only [multiAppend, List.mem_singleton] at hg
      subst hg
      simp only [List.mem_singleton] at hx
      exact .inr hx
  | cons kv rest ih =>
      intro k v g hg x hx
      obtain ⟨k0, vs⟩ := kv
      by_cases h0 : k0 = k
      · subst h0
        have hred : multiAppend ((k0, vs) :: rest) k0 v = (k0, vs ++ [v]) :: rest := by
          simp [multiAppend]
        rw [hred, List.mem_cons] at hg
        rcases hg with rfl | hg
        · simp only [List.mem_append, List.mem_singleton] at hx
          rcases hx with hx | hx
          · exact .inl ⟨(k0, vs), List.mem_cons_self .., hx⟩
          · exact .inr hx
        · exact .inl ⟨g, List.mem_cons_of_mem _ hg, hx⟩
      · simp only [multiAppend, if_neg h0, List.mem_cons] at hg
        rcases hg with rfl | hg
        · exact .inl ⟨(k0, vs), List.mem_cons_self .., hx⟩
        · rcases ih k v g hg x hx with ⟨g0, hg0, hx0⟩ | hx0
          · exact .inl ⟨g0, List.mem_cons_of_mem _ hg0, hx0⟩
          · exact .inr hx0

/-- Every path a `buildGroups` pass puts into a group either was already
in the starting grouping or survived the `seen` raw-prefix filter. -/
theorem buildGroups_paths {fs : String → Option String} {opt : Options}
    {seen : List String} :
    ∀ (snapshot : List String) (sh0 : List (HashVal × List String)) (st : DState)
      (sh : List (HashVal × List String)) (st' : DState),
      buildGroups fs opt seen snapshot sh0 st = .ok (sh, st') →
      ∀ g ∈ sh, ∀ x ∈ g.2, (∃ g0 ∈ sh0, x ∈ g0.2) ∨ seenSkip seen x = false := by
  intro snapshot
  induction snapshot with
  | nil =>
      intro sh0 st sh st' hok g hg x hx
      simp only [buildGroups, Except.ok.injEq, Prod.mk.injEq] at hok
      obtain ⟨rfl, rfl⟩ := hok
      exact .inl ⟨g, hg, hx⟩
  | cons path rest ih =>
      intro sh0 st sh st' hok g hg x hx
      by_cases hskip : seenSkip seen path = true
      · simp only [buildGroups, hskip, if_pos] at hok
        exact ih sh0 st sh st' hok g hg x hx
      · simp only [Bool.not_eq_true] at hskip
        simp only [buildGroups, hskip, Bool.false_eq_true, if_false] at hok
        cases hrec : recur fs opt
            ((assocGet st.pathNode path).getD (.node [] .nilF)) path st with
        | error e =>
            rw [hrec] at hok
            simp only [bind, Except.bind] at hok
            exact Except.noConfusion hok
        | ok pr =>
            obtain ⟨⟨h, cnt, bts⟩, st1⟩ := pr
            rw [hrec] at hok
            simp only [bind, Except.bind] at hok
            rcases ih _ _ _ _ hok g hg x hx with hin | hfree
            · obtain ⟨g0, hg0, hx0⟩ := hin
              rcases mem_multiAppend_paths sh0 h path g0 hg0 x hx0 with hin0 | rfl
              · exact .inl hin0
              · exact .inr hskip
            · exact .inr hfree

/-- Loop invariant of `dupe_dirs`'s key loop: every printed path passed
the raw-prefix filter against the `seen` set current when its key began,
and no path printed under a later key extends (as a raw string) a path
printed under an earlier key. -/
theorem ddLoop_spec {fs : String → Option String} {opt : Options} :
    ∀ (keys : List (Nat × HashVal)) (st : DState) (seen : List String) (shown : Nat)
      (blocks : List Block) (st' : DState) (seen' : List String),
      ddLoop fs opt keys st seen shown = .ok (blocks, st', seen') →
      (∀ b ∈ blocks, ∀ pr ∈ b, ∀ x ∈ pr.2, seenSkip seen x = false) ∧
      (∀ (i j : Nat) (bi bj : Block), i < j →
        blocks[i]? = some bi → blocks[j]? = some bj →
        ∀ pri ∈ bi, ∀ p ∈ pri.2, ∀ prj ∈ bj, ∀ q ∈ prj.2, strStart p q = false) := by
  intro keys
  induction keys with
  | nil =>
      intro st seen shown blocks st' seen' hok
      simp only [ddLoop, Except.ok.injEq, Prod.mk.injEq] at hok
      obtain ⟨rfl, -, -⟩ := hok
      exact ⟨by simp, by simp⟩
  | cons key rest ih =>
      intro st seen shown blocks st' seen' hok
      obtain ⟨size, h⟩ := key
      by_cases hlen : (multiGet st.hashes (size, h)).length < 2
      · simp only [ddLoop, if_pos hlen] at hok
        exact ih st seen shown blocks st' seen' hok
      · simp only [ddLoop, if_neg hlen] at hok
        cases hbg : buildGroups fs opt seen (multiGet st.hashes (size, h)) [] st with
        | error e =>
            rw [hbg] at hok
            simp only [bind, Except.bind] at hok
            exact Except.noConfusion hok
        | ok prA =>
            obtain ⟨sh, stA⟩ := prA
            rw [hbg] at hok
            simp only [bind, Except.bind] at hok
            obtain ⟨c1, c2, c3⟩ := printGroups_spec size sh seen
            cases hpg : printGroups size sh seen with
            | mk blk seen₂ =>
                rw [hpg] at hok c1 c2 c3
                dsimp only at c1 c2 c3
                have hblk : ∀ pr ∈ blk, ∀ x ∈ pr.2, seenSkip seen x = false := by
                  intro pr hpr x hx
                  obtain ⟨gh, hgh, he⟩ := c2 pr hpr
                  rw [he] at hx
                  rcases buildGroups_paths _ _ _ _ _ hbg gh hgh x hx with ⟨g0, hg0, -⟩ | hfree
                  · cases hg0
                  · exact hfree
                by_cases hstop : (decide (opt.show_n ≠ 0) && decide (shown + 1 ≥ opt.show_n)) = true
                · rw [if_pos hstop] at hok
                  simp only [Except.ok.injEq, Prod.mk.injEq] at hok
                  obtain ⟨rfl, -, -⟩ := hok
                  refine ⟨?_, ?_⟩
                  · intro b hb pr hpr x hx
                    rw [List.mem_singleton] at hb
                    subst hb
                    exact hblk pr hpr x hx
                  · intro i j bi bj hij hbi hbj pri hpri p hp prj hprj q hq
                    have : j = 0 := by
                      by_contra hj
                      obtain ⟨j', rfl⟩ := Nat.exists_eq_succ_of_ne_zero hj
                      rw [List.getElem?_cons_succ] at hbj
                      simp at hbj
                    omega
                · rw [if_neg hstop] at hok
                  cases hdd : ddLoop fs opt rest stA seen₂ (shown + 1) with
                  | error e =>
                      rw [hdd] at hok
                      simp only [bind, Except.bind] at hok
                      exact Except.noConfusion hok
                  | ok prB =>
                      obtain ⟨blocks', st2, seen3⟩ := prB
                      rw [hdd] at hok
                      simp only [bind, Except.bind, Except.ok.injEq,
                        Prod.mk.injEq] at hok
                      obtain ⟨rfl, -, -⟩ := hok
                      obtain ⟨d1, d2⟩ := ih stA seen₂ (shown + 1) blocks' st2 seen3 hdd
                      refine ⟨?_, ?_⟩
                      · intro b hb pr hpr x hx
                        rw [List.mem_cons] at hb
                        rcases hb with rfl | hb
                        · exact hblk pr hpr x hx
                        · exact seenSkip_mono (fun pp hpp => c1 pp hpp)
                            (d1 b hb pr hpr x hx)
                      · intro i j bi bj hij hbi hbj pri hpri p hp prj hprj q hq
                        cases i with
                        | zero =>
                            rw [List.getElem?_cons_zero] at hbi
                            obtain rfl : blk = bi := Option.some.inj hbi
                            obtain ⟨j', rfl⟩ :=
                              Nat.exists_eq_succ_of_ne_zero (Nat.pos_iff_ne_zero.1 hij)
                            rw [List.getElem?_cons_succ] at hbj
                            have hpseen : p ∈ seen₂ := c3 pri hpri p hp
                            have hbjmem : bj ∈ blocks' := List.getElem?_mem hbj
                            have hqfree : seenSkip seen₂ q = false :=
                              d1 bj hbjmem prj hprj q hq
                            exact (seenSkip_eq_false_iff.1 hqfree) p hpseen
                        | succ i' =>
                            obtain ⟨j', rfl⟩ :=
                              Nat.exists_eq_succ_of_ne_zero (by omega :
                                j ≠ 0)
                            rw [List.getElem?_cons_succ] at hbi hbj
                            exact d2 i' j' bi bj (by omega) hbi hbj pri hpri p hp
                              prj hprj q hq

/-- C10: suppression of already-reported duplicate directories is by raw
string prefix (`path.startswith(i)` over the printed set `seen`): no
path printed while processing a later `(size, hash)` key extends — as a
raw string, descendant or not — any path printed under an earlier key.
In particular a sibling like "/a/bc" is suppressed after "/a/b" has been
reported (see the witness, where the "/a/bc" pair's block comes out
empty even though "/a/bc" is not a descendant of "/a/b"). -/
theorem C10_seen_suppression_by_raw_startswith {fs : String → Option String}
    {opt : Options} {hvGE : HashVal → HashVal → Bool} {recs : List Record}
    {run : RunState} {out : List Block}
    (hok : dupe_dirs fs opt hvGE recs run = .ok out)
    (i j : Nat) (bi bj : Block) (hij : i < j)
    (hbi : out[i]? = some bi) (hbj : out[j]? = some bj)
    (pri prj : Nat × List String) (hpri : pri ∈ bi) (hprj : prj ∈ bj)
    (p q : String) (hp : p ∈ pri.2) (hq : q ∈ prj.2) :
    strStart p q = false := by
  simp only [dupe_dirs, bind, Except.bind] at hok
  cases hrec : recur fs opt (get_hier_db recs) "/" ⟨run, [], []⟩ with
  | error e =>
      rw [hrec] at hok
      exact Except.noConfusion hok
  | ok pr =>
      obtain ⟨v, st1⟩ := pr
      rw [hrec] at hok
      dsimp only at hok
      cases hdd : ddLoop fs opt (isort (keyLE hvGE) (st1.hashes.map (fun x => x.1)))
          st1 [] 0 with
      | error e =>
          rw [hdd] at hok
          exact Except.noConfusion hok
      | ok prB =>
          obtain ⟨blocks, st2, seen'⟩ := prB
          rw [hdd] at hok
          dsimp only at hok
          obtain rfl : blocks = out := Except.ok.inj hok
          obtain ⟨-, d2⟩ := ddLoop_spec _ _ _ _ _ _ _ hdd
          exact d2 i j bi bj hij hbi hbj pri hpri p hp prj hprj q hq

/-- Records for the C10 witness: `/a/b` and `/v` are duplicates (largest
pair), `/a/bc` and `/w` are duplicates of each other, `/z1` and `/z2`
are a third, smallest pair. -/
def recsSup : List Record :=
  [⟨"/a/b", [mkFi "w" 30]⟩, ⟨"/v", [mkFi "w" 30]⟩,
   ⟨"/a/bc", [mkFi "m" 20]⟩, ⟨"/w", [mkFi "m" 20]⟩,
   ⟨"/z1", [mkFi "s" 10]⟩, ⟨"/z2", [mkFi "s" 10]⟩]

/-- Contents for `recsSup`. -/
def fsSup : String → Option String :=
  fsTable [("a/b/w", "W"), ("v/w", "W"), ("a/bc/m", "M"), ("w/m", "M"),
           ("z1/s", "S"), ("z2/s", "S")]

/-- Witness for C10.  After `/a/b` is reported, the candidate `/a/bc` —
a string extension of `/a/b` but not a descendant — is skipped, so its
key's block is empty and its partner `/w` is not reported either; the
later `/z1`/`/z2` block shows the theorem's conclusion on a concrete
later-printed path. -/
theorem C10_seen_suppression_by_raw_startswith_witness :
    dupe_dirs fsSup optPlain (fun _ _ => true) recsSup runNoDb =
      .ok [[(30, ["/a/b", "/v"])], [], [(10, ["/z1", "/z2"])]] ∧
    strStart "/a/b" "/z1" = false :=
  ⟨rfl,
   @C10_seen_suppression_by_raw_startswith fsSup optPlain (fun _ _ => true)
     recsSup runNoDb [[(30, ["/a/b", "/v"])], [], [(10, ["/z1", "/z2"])]]
     rfl 0 2 [(30, ["/a/b", "/v"])] [(10, ["/z1", "/z2"])] (by decide) rfl rfl
     (30, ["/a/b", "/v"]) (10, ["/z1", "/z2"]) (by decide) (by decide)
     "/a/b" "/z1" (by decide) (by decide)⟩

end Knowall
